import Mathlib

/-!
Verification development for the EmailScout AI repository (website email
scraper).  The TypeScript sources are shallowly embedded below:

* `src/types.ts` — `ExtractionStatus`, `WebsiteData`, `Stats`;
* the App component (queue controller) — `normalizeUrl`, `stats`,
  `addUrls`, `removeWebsite`, `clearList`, `saveAndClear`, `processQueue`;
* the Gemini service — `findEmailsForUrl` with the email regex filter;
* the file utilities — `parseText` / the cell scan of `parseFile`.

JavaScript strings are modelled as Lean `String`s (lists of characters),
JS numbers appearing in the logic are naturals (the only arithmetic is
counting and `Math.round` of a non-negative ratio, modelled exactly over
rationals), `uuidv4` id generation is modelled by a fresh-id counter, and
the JS object used for the history cache is modelled as an association
list with insert-or-overwrite semantics.  Effectful library calls
(the Gemini transport, `JSON.parse`, the XLSX cell scan) enter as
explicit inputs/oracles of the embedded functions.
-/

/-- src/types.ts: the five-value status enum. -/
inductive ExtractionStatus where
  | IDLE
  | PENDING
  | PROCESSING
  | COMPLETED
  | FAILED
deriving Repr, DecidableEq

/-- src/types.ts: one tracked website record. -/
structure WebsiteData where
  id : Nat
  url : String
  status : ExtractionStatus
  emails : List String
  error : Option String
  sourceUrl : Option String
deriving Repr, DecidableEq

/-- src/types.ts: the derived statistics record. -/
structure Stats where
  total : Nat
  processed : Nat
  found : Nat
  successRate : Nat
deriving Repr, DecidableEq

/-- App: regex `^(https?:\/\/)?` — case-sensitively strip one leading
`https://` (preferred, greedy `s?`) or `http://` prefix. -/
def stripScheme (l : List Char) : List Char :=
  if List.isPrefixOf ['h', 't', 't', 'p', 's', ':', '/', '/'] l then l.drop 8
  else if List.isPrefixOf ['h', 't', 't', 'p', ':', '/', '/'] l then l.drop 7
  else l

/-- App: regex `\/$` — remove at most one trailing slash. -/
def stripSlash (l : List Char) : List Char :=
  if l.getLast? = some '/' then l.dropLast else l

/-- App `normalizeUrl`: `url.replace(/^(https?:\/\/)?/, '').replace(/\/$/, '').toLowerCase()`
(lowercasing character by character, as `toLowerCase` does). -/
def normalizeUrl (url : String) : String :=
  ⟨(stripSlash (stripScheme url.data)).map Char.toLower⟩

/-- Natural division rounded to nearest with ties to even, the rounding
the IEEE-754 default mode applies to an exact quotient scaled onto the
53-bit significand grid. -/
def natDivHE (a b : ℕ) : ℕ :=
  let q := a / b
  let r := a % b
  if 2 * r < b then q
  else if b < 2 * r then q + 1
  else if q % 2 = 0 then q else q + 1

/-- Fuelled base-2 logarithm (structural recursion so the kernel can
evaluate it). -/
def log2Aux : ℕ → ℕ → ℕ
  | 0, _ => 0
  | fuel + 1, n => if 2 ≤ n then log2Aux fuel (n / 2) + 1 else 0

/-- ⌊log2 n⌋ for n ≥ 1 (and 0 at 0). -/
def natLog2F (n : ℕ) : ℕ := log2Aux n n

/-- ⌊log2 (a/b)⌋ for positive naturals a, b. -/
def ratLog2 (a b : ℕ) : ℤ :=
  let j := natLog2F b + 1
  (natLog2F ((a * 2 ^ j) / b) : ℤ) - (j : ℤ)

/-- IEEE-754 binary64 rounding of the exact quotient f/p: the 53-bit
significand (round to nearest, ties to even) paired with its binary
exponent.  Overflow and gradual underflow are not modelled; they cannot
occur for the array-length-sized operands the program divides. -/
def fpDiv (f p : ℕ) : ℕ × ℤ :=
  let e := ratLog2 f p
  if 0 ≤ 52 - e then (natDivHE (f * 2 ^ (52 - e).toNat) p, e - 52)
  else (natDivHE f (p * 2 ^ (e - 52).toNat), e - 52)

/-- Binary64 product of a double (m, g) with the exactly representable
constant 100, rounded back to 53 significand bits when needed. -/
def fpMul100 : ℕ × ℤ → ℕ × ℤ
  | (m, g) =>
    let m1 := 100 * m
    let L := natLog2F m1
    if L ≤ 52 then (m1, g)
    else (natDivHE m1 (2 ^ (L - 52)), g + ((L - 52 : ℕ) : ℤ))

/-- JS `Math.round` on a nonnegative double (m, g): per the ECMAScript
spec, the integer closest to the exact double value, halves toward +∞. -/
def fpMathRound : ℕ × ℤ → ℕ
  | (m, g) =>
    if 0 ≤ g then m * 2 ^ g.toNat
    else (2 * m + 2 ^ (-g).toNat) / (2 * 2 ^ (-g).toNat)

/-- `Math.round((f / p) * 100)` exactly as the binary64 hardware computes
it (App.tsx stats): round f/p to a double, multiply by 100 rounding to a
double, then Math.round the result. -/
def jsPercent (f p : ℕ) : ℕ := fpMathRound (fpMul100 (fpDiv f p))

/-- App `stats`: derived statistics.  The success rate is
`Math.round((found / processed) * 100)` in the binary64 arithmetic the
code actually runs (`jsPercent`), not the exact rational rounding — the
two differ, e.g. at found=23, processed=40. -/
def stats (websites : List WebsiteData) : Stats :=
  let processed := (websites.filter (fun w =>
    decide (w.status = ExtractionStatus.COMPLETED ∨ w.status = ExtractionStatus.FAILED))).length
  let found := (websites.filter (fun w => decide (0 < w.emails.length))).length
  let total := websites.length
  { total := total
    processed := processed
    found := found
    successRate := if 0 < processed then jsPercent found processed else 0 }

/-- History cache entries: JS object `Record<normalizedUrl, emails[]>`
modelled as an association list kept in property-insertion order. -/
abbrev History := List (String × List String)

/-- JS property read `history[key]` (as an `Option`; the code only tests
truthiness, and the stored arrays are truthy even when empty). -/
def histLookup (k : String) (h : History) : Option (List String) :=
  (List.find? (fun p => p.1 = k) h).map Prod.snd

/-- JS property write `history[key] = v`: overwrite in place when the key
exists, otherwise append the new property. -/
def histInsert (k : String) (v : List String) (h : History) : History :=
  if (List.find? (fun p => p.1 = k) h).isSome then
    List.map (fun p => if p.1 = k then (k, v) else p) h
  else h ++ [(k, v)]

/-- The App component's state: the `useState` cells that the embedded
operations read and write (`nextId` models the `uuidv4` id source). -/
structure AppState where
  websites : List WebsiteData
  isProcessing : Bool
  targetAudience : String
  history : History
  notification : Option String
  nextId : Nat

/-- Result of the `addUrls` accumulation loop. -/
structure AddOutcome where
  entries : List WebsiteData
  dup : Nat
  hist : Nat
  nextId : Nat
deriving Repr

/-- App `addUrls` main loop: for each url, skip it (counting) when its
normalized form is already in the seen-set or in history, otherwise
create a fresh IDLE record and extend the seen-set. -/
def addLoop (history : History) : List String → List String → Nat → AddOutcome
  | [], _, nid => { entries := [], dup := 0, hist := 0, nextId := nid }
  | u :: rest, seen, nid =>
    let n := normalizeUrl u
    if seen.contains n then
      let r := addLoop history rest seen nid
      { r with dup := r.dup + 1 }
    else if (histLookup n history).isSome then
      let r := addLoop history rest seen nid
      { r with hist := r.hist + 1 }
    else
      let r := addLoop history rest (n :: seen) (nid + 1)
      { r with entries :=
          { id := nid, url := u, status := ExtractionStatus.IDLE,
            emails := [], error := none, sourceUrl := none } :: r.entries }

/-- App `addUrls` notification assembly (exact message strings). -/
def addNotif (dup hist : Nat) : Option String :=
  if 0 < hist then
    some ((toString hist) ++ " website" ++ (if 1 < hist then "s" else "") ++
      " already in your history were skipped." ++
      (if 0 < dup then " (" ++ toString dup ++ " duplicates in list ignored)" else ""))
  else if 0 < dup then
    some ((toString dup) ++ " duplicate website" ++ (if 1 < dup then "s" else "") ++ " ignored.")
  else none

/-- App `addUrls`: seed the seen-set with the normalized active urls, run
the loop, append the accepted entries, set the notification. -/
def addUrls (urls : List String) (st : AppState) : AppState :=
  let seen := st.websites.map (fun w => normalizeUrl w.url)
  let r := addLoop st.history urls seen st.nextId
  { st with websites := st.websites ++ r.entries
            nextId := r.nextId
            notification := addNotif r.dup r.hist }

/-- App `removeWebsite`: drop the record with the given id. -/
def removeWebsite (i : Nat) (st : AppState) : AppState :=
  { st with websites := st.websites.filter (fun w => decide (w.id ≠ i)) }

/-- App `clearList` (confirmed branch; the cancel branch leaves the state
unchanged): discard the list and the notification. -/
def clearList (st : AppState) : AppState :=
  if st.websites = [] then st
  else { st with websites := [], notification := none }

/-- A record counts as processed when COMPLETED or FAILED. -/
def isProcessed (w : WebsiteData) : Bool :=
  decide (w.status = ExtractionStatus.COMPLETED ∨ w.status = ExtractionStatus.FAILED)

/-- App `saveAndClear`: merge every COMPLETED/FAILED record into the
history under its normalized url, clear the list, notify. -/
def saveAndClear (st : AppState) : AppState :=
  if st.websites = [] then st
  else
    let newHistory := st.websites.foldl
      (fun h w => if isProcessed w then histInsert (normalizeUrl w.url) w.emails h else h)
      st.history
    let savedCount := (st.websites.filter isProcessed).length
    { st with history := newHistory
              websites := []
              notification := some ("Saved " ++ toString savedCount ++
                " websites to history and cleared the list.") }

/-- A JavaScript error value as the queue controller inspects it:
optional `status` / `code` numeric fields and an optional `message`. -/
structure JsError where
  status : Option Nat
  code : Option Nat
  message : Option String
deriving Repr, DecidableEq

/-- Boolean prefix test on character lists (JS `String.prototype` prefix
comparison used by the substring search below). -/
def listPrefixB : List Char → List Char → Bool
  | [], _ => true
  | _ :: _, [] => false
  | a :: as, b :: bs => a == b && listPrefixB as bs

/-- JS `s.includes(sub)`: does `sub` occur contiguously inside `s`. -/
def strIncludes (s sub : String) : Bool :=
  go sub.data s.data
where
  go (sub : List Char) : List Char → Bool
    | [] => listPrefixB sub []
    | c :: t => listPrefixB sub (c :: t) || go sub t

/-- The controller's rate-limit test: `error?.status === 429 ||
error?.code === 429 || error?.message?.includes('429') ||
error?.message?.includes('quota') || error?.message?.includes('RESOURCE_EXHAUSTED')`. -/
def isRateLimit (e : JsError) : Bool :=
  e.status == some 429 || e.code == some 429 ||
    (match e.message with
     | some m => strIncludes m "429" || strIncludes m "quota" || strIncludes m "RESOURCE_EXHAUSTED"
     | none => false)

/-- The error text stored on a FAILED record: `error.message || "Failed to scout"`
(JS `||` also replaces an empty message). -/
def errorText (e : JsError) : String :=
  match e.message with
  | some m => if m = "" then "Failed to scout" else m
  | none => "Failed to scout"

/-- Outcome of one `findEmailsForUrl` call as seen by the queue loop:
the resolved email list, or the thrown error. -/
inductive FinderOutcome where
  | ok (emails : List String)
  | err (e : JsError)
deriving Repr, DecidableEq

/-- The emails carried by a successful outcome. -/
def okEmails : FinderOutcome → List String
  | .ok es => es
  | .err _ => []

/-- Does this outcome fail with a rate-limit-flavored error. -/
def isRateLimited : FinderOutcome → Bool
  | .ok _ => false
  | .err e => isRateLimit e

/-- The controller's record edits are all of the shape
`prev.map(w => w.id === item.id ? {...) : w)`. -/
def updateById (i : Nat) (g : WebsiteData → WebsiteData) (ws : List WebsiteData) :
    List WebsiteData :=
  ws.map (fun w => if w.id = i then g w else w)

/-- The fixed pause notice shown when a 429 is detected. -/
def rateLimitNotice : String :=
  "Rate limit reached (429). The scan has been paused to preserve quota. Please wait 1-2 minutes before resuming."

/-- The body of `processQueue`: walk the IDLE snapshot sequentially.  The
result carries every intermediate state (after each `setWebsites` /
`setIsProcessing` / `setNotification` mutation, in order) together with
the list of urls the finder was invoked on; the run's final state is the
last trace entry.  The fixed 4-second delay suspends but changes no
state, so it has no counterpart here. -/
def runQueue (f : String → FinderOutcome) : List WebsiteData → AppState → List AppState × List String
  | [], st => ([{ st with isProcessing := false }], [])
  | item :: rest, st =>
    let ws1 := updateById item.id (fun w => { w with status := ExtractionStatus.PROCESSING }) st.websites
    let st1 := { st with websites := ws1 }
    match f item.url with
    | .ok emails =>
      let ws2 := updateById item.id (fun w => { w with status := ExtractionStatus.COMPLETED, emails := emails }) st1.websites
      let st2 := { st1 with websites := ws2 }
      let r := runQueue f rest st2
      (st1 :: st2 :: r.1, item.url :: r.2)
    | .err e =>
      if isRateLimit e then
        let st2 := { st1 with notification := some rateLimitNotice, isProcessing := false }
        let ws3 := updateById item.id (fun w => { w with status := ExtractionStatus.IDLE }) st2.websites
        let st3 := { st2 with websites := ws3 }
        ([st1, st2, st3], [item.url])
      else
        let ws2 := updateById item.id (fun w => { w with status := ExtractionStatus.FAILED, error := some (errorText e) }) st1.websites
        let st2 := { st1 with websites := ws2 }
        let r := runQueue f rest st2
        (st1 :: st2 :: r.1, item.url :: r.2)

/-- The IDLE snapshot `websites.filter(w => w.status === IDLE)`. -/
def pendingOf (st : AppState) : List WebsiteData :=
  st.websites.filter (fun w => decide (w.status = ExtractionStatus.IDLE))

/-- App `processQueue`: no-op while already running; otherwise raise the
running flag, clear the notification, and walk the IDLE snapshot.  The
finder argument `f` gives the outcome of `findEmailsForUrl(url, audience)`
for each url (the session audience is fixed for the run). -/
def processQueue (f : String → FinderOutcome) (st : AppState) : AppState :=
  if st.isProcessing then st
  else
    let st0 := { st with isProcessing := true, notification := none }
    ((runQueue f (pendingOf st0) st0).1).getLastD st0

/-- Every state the run passes through, in order (starting with the state
that has the running flag raised). -/
def processQueueTrace (f : String → FinderOutcome) (st : AppState) : List AppState :=
  if st.isProcessing then []
  else
    let st0 := { st with isProcessing := true, notification := none }
    st0 :: (runQueue f (pendingOf st0) st0).1

/-- The urls the run hands to the email finder, in call order. -/
def processQueueCalls (f : String → FinderOutcome) (st : AppState) : List String :=
  if st.isProcessing then []
  else
    let st0 := { st with isProcessing := true, notification := none }
    (runQueue f (pendingOf st0) st0).2

/-- The expected net effect of the loop on one snapshot record: COMPLETED
with the returned emails on success, FAILED with the error text otherwise. -/
def applyOutcome (f : String → FinderOutcome) (w : WebsiteData) : WebsiteData :=
  match f w.url with
  | .ok es => { w with status := ExtractionStatus.COMPLETED, emails := es }
  | .err e => { w with status := ExtractionStatus.FAILED, error := some (errorText e) }

/-- The App's initial state: empty list, not running, history loaded from
local storage (arbitrary here), empty audience. -/
def initialState (h : History) : AppState :=
  { websites := [], isProcessing := false, targetAudience := "",
    history := h, notification := none, nextId := 0 }

/-- The states reachable from a fresh page load through the user-facing
operations, including every intermediate state of a queue run. -/
inductive Reachable : AppState → Prop where
  | init (h : History) : Reachable (initialState h)
  | add (urls : List String) {st : AppState} : Reachable st → Reachable (addUrls urls st)
  | remove (i : Nat) {st : AppState} : Reachable st → Reachable (removeWebsite i st)
  | clear {st : AppState} : Reachable st → Reachable (clearList st)
  | save {st : AppState} : Reachable st → Reachable (saveAndClear st)
  | audience (s : String) {st : AppState} : Reachable st → Reachable { st with targetAudience := s }
  | dismiss {st : AppState} : Reachable st → Reachable { st with notification := none }
  | run (f : String → FinderOutcome) {st : AppState} : Reachable st → Reachable (processQueue f st)
  | runMid (f : String → FinderOutcome) {st st' : AppState} :
      Reachable st → st' ∈ processQueueTrace f st → Reachable st'

/-- A JSON value as produced by `JSON.parse`. -/
inductive JsValue where
  | jnull : JsValue
  | jbool : Bool → JsValue
  | jnum : Int → JsValue
  | jstr : String → JsValue
  | jarr : List JsValue → JsValue
  | jobj : List (String × JsValue) → JsValue

/-- JS truthiness of a parsed JSON value (`if (parsed && ...)`). -/
def jsTruthy : JsValue → Bool
  | .jnull => false
  | .jbool b => b
  | .jnum n => decide (n ≠ 0)
  | .jstr s => decide (s ≠ "")
  | .jarr _ => true
  | .jobj _ => true

/-- JS property access `parsed.emails` (only objects carry the field). -/
def getEmailsField : JsValue → Option JsValue
  | .jobj kvs => (List.find? (fun p => p.1 = "emails") kvs).map Prod.snd
  | _ => none

mutual
/-- The JS string coercion `String(v)` that `RegExp.test` applies to a
non-string argument. -/
def jsToString : JsValue → String
  | .jnull => "null"
  | .jbool b => if b then "true" else "false"
  | .jnum n => toString n
  | .jstr s => s
  | .jarr xs => String.intercalate "," (jsArrStrs xs)
  | .jobj _ => "[object Object]"

/-- Element strings of `Array.prototype.toString` (a null element joins
as the empty string). -/
def jsArrStrs : List JsValue → List String
  | [] => []
  | .jnull :: rest => "" :: jsArrStrs rest
  | v :: rest => jsToString v :: jsArrStrs rest
end

/-- Character class `[a-zA-Z0-9._%+-]` (the local part of the service's
email regex). -/
def isLocalChar (c : Char) : Bool :=
  c.isAlpha || c.isDigit || c = '.' || c = '_' || c = '%' || c = '+' || c = '-'

/-- Character class `[a-zA-Z0-9.-]` (the domain part). -/
def isDomainChar (c : Char) : Bool :=
  c.isAlpha || c.isDigit || c = '.' || c = '-'

/-- After one domain character: either more domain characters, or the
literal dot followed by at least two letters (`\.[a-zA-Z]{2,}`). -/
def domRest : List Char → Bool
  | [] => false
  | c :: rest =>
    (c = '.' && (match rest with
      | c1 :: c2 :: _ => c1.isAlpha && c2.isAlpha
      | _ => false)) ||
    (isDomainChar c && domRest rest)

/-- Match `[a-zA-Z0-9.-]+\.[a-zA-Z]{2,}` at the head of the list (with an
arbitrary remainder, as `test` is unanchored). -/
def domainMatch : List Char → Bool
  | [] => false
  | c :: rest => isDomainChar c && domRest rest

/-- Unanchored search for `[a-zA-Z0-9._%+-]+@[a-zA-Z0-9.-]+\.[a-zA-Z]{2,}`:
some position carries a local character directly followed by `@` and a
domain match (one local character suffices for the unanchored `+`). -/
def emailSearch : List Char → Bool
  | c1 :: c2 :: rest =>
    (isLocalChar c1 && c2 = '@' && domainMatch rest) || emailSearch (c2 :: rest)
  | _ => false

/-- `emailRegex.test(s)` of the Gemini service. -/
def emailTest (s : String) : Bool :=
  emailSearch s.data

/-- The thrown `Error("API Key not found in environment variables")`. -/
def apiKeyError : JsError :=
  { status := none, code := none, message := some "API Key not found in environment variables" }

/-- Strip markdown code fences as the service does:
`text.replace(/```json/g, '').replace(/```/g, '').trim()`
(`String.replace` replaces every occurrence, matching the `g` flag). -/
def cleanResponseText (t : String) : String :=
  ((t.replace "```json" "").replace "```" "").trim

/-- Gemini service `findEmailsForUrl`, with the effectful library calls
as explicit inputs: `env` is `process.env.API_KEY`; `transport` is the
result of `ai.models.generateContent` (the optional `response.text`, or
the thrown error); `jsonParse` is the `JSON.parse` oracle (`none` for a
parse exception).  Returns the filtered email list or rethrows. -/
def findEmailsForUrl (env : Option String) (transport : Except JsError (Option String))
    (jsonParse : String → Option JsValue) : Except JsError (List JsValue) :=
  match env with
  | none => .error apiKeyError
  | some _ =>
    match transport with
    | .error e => .error e
    | .ok textOpt =>
      let text := textOpt.getD ""
      let cleanText := cleanResponseText text
      match jsonParse cleanText with
      | none => .ok []
      | some parsed =>
        if jsTruthy parsed then
          match getEmailsField parsed with
          | some (.jarr xs) => .ok (xs.filter (fun e => emailTest (jsToString e)))
          | _ => .ok []
        else .ok []

/-- Splitting class of `text.split(/[\n,;]+/)`. -/
def isDelim (c : Char) : Bool :=
  c = '\n' || c = ',' || c = ';'

/-- JS `split` on `/[\n,;]+/`: a maximal run of delimiters is one
separator; a leading/trailing run still yields an empty piece. -/
def splitDelimsAux : List Char → List (List Char)
  | [] => [[]]
  | c :: rest =>
    if isDelim c then
      match rest with
      | [] => [] :: splitDelimsAux rest
      | d :: _ => if isDelim d then splitDelimsAux rest else [] :: splitDelimsAux rest
    else
      match splitDelimsAux rest with
      | [] => [[c]]
      | h :: t => (c :: h) :: t

/-- String-level wrapper of the delimiter split. -/
def splitDelims (s : String) : List String :=
  (splitDelimsAux s.data).map (fun l => String.mk l)

/-- JS `String.prototype.trim`: drop whitespace from both ends (done at
the character-list level). -/
def jsTrim (s : String) : String :=
  ⟨((s.data.dropWhile Char.isWhitespace).reverse.dropWhile Char.isWhitespace).reverse⟩

/-- Character class `[\da-z.-]` of the url regex (uppercase letters too
under the `i` flag). -/
def isDChar (ci : Bool) (c : Char) : Bool :=
  c.isDigit || c.isLower || (ci && c.isUpper) || c = '.' || c = '-'

/-- Character class `[a-z.]` of the TLD group (uppercase under `i`). -/
def isTChar (ci : Bool) (c : Char) : Bool :=
  c.isLower || (ci && c.isUpper) || c = '.'

/-- Character class `[\/\w .-]` of the path group (`\w` is case-blind). -/
def isPChar (c : Char) : Bool :=
  c.isAlpha || c.isDigit || c = '_' || c = '/' || c = ' ' || c = '.' || c = '-'

/-- TLD group plus tail: having consumed `k` TLD characters, accept when
`k ≥ 2` and the remainder is all path characters (which absorbs the
trailing `([\/\w \.-]*)*\/?$`), or consume another TLD character while
`k < 6`. -/
def tldRun (ci : Bool) : Nat → List Char → Bool
  | k, [] => decide (2 ≤ k)
  | k, c :: rest =>
    (decide (2 ≤ k) && (c :: rest).all isPChar) ||
    (decide (k < 6) && isTChar ci c && tldRun ci (k + 1) rest)

/-- After at least one domain character: more domain characters, or the
literal dot opening the TLD group. -/
def domTail (ci : Bool) : List Char → Bool
  | [] => false
  | c :: rest => (c = '.' && tldRun ci 0 rest) || (isDChar ci c && domTail ci rest)

/-- The body `([\da-z\.-]+)\.([a-z\.]{2,6})([\/\w \.-]*)*\/?$` of the url
regex, matched against the whole remainder. -/
def bodyMatch (ci : Bool) : List Char → Bool
  | [] => false
  | c :: rest => isDChar ci c && domTail ci rest

/-- Drop a literal prefix, case-insensitively when `ci`. -/
def dropCIPrefix (ci : Bool) : List Char → List Char → Option (List Char)
  | [], l => some l
  | _ :: _, [] => none
  | p :: ps, c :: cs =>
    if (if ci then p.toLower = c.toLower else p = c) then dropCIPrefix ci ps cs else none

/-- The anchored url regex
`^(https?:\/\/)?([\da-z\.-]+)\.([a-z\.]{2,6})([\/\w \.-]*)*\/?$` as a
whole-string test (`ci` is the `i` flag: present in `parseText`, absent
in `parseFile`). -/
def urlRegexMatch (ci : Bool) (s : String) : Bool :=
  bodyMatch ci s.data ||
  (match dropCIPrefix ci ['h', 't', 't', 'p', ':', '/', '/'] s.data with
   | some r => bodyMatch ci r
   | none => false) ||
  (match dropCIPrefix ci ['h', 't', 't', 'p', 's', ':', '/', '/'] s.data with
   | some r => bodyMatch ci r
   | none => false)

/-- `Array.from(new Set(urls))`: drop later duplicates, keep first
occurrences in insertion order. -/
def dedupJsAux (seen : List String) : List String → List String
  | [] => []
  | x :: rest => if seen.contains x then dedupJsAux seen rest else x :: dedupJsAux (x :: seen) rest

/-- JS `Set`-based exact-string dedup. -/
def dedupJs (l : List String) : List String :=
  dedupJsAux [] l

/-- File utils `parseText`: split on newline/comma/semicolon runs, trim,
keep the non-empty pieces passing the (case-insensitive) url regex, then
`Set`-dedup. -/
def parseText (text : String) : List String :=
  dedupJs (((splitDelims text).map jsTrim).filter
    (fun line => decide (0 < line.length) && urlRegexMatch true line))

/-- A spreadsheet cell as the scan distinguishes them: a string cell or
anything else. -/
inductive Cell where
  | str : String → Cell
  | other : Cell

/-- File utils `parseFile` cell scan (the `XLSX` sheet decoding is the
library's; its output enters as the row-major string cells): trim each
string cell, keep it when the (case-sensitive) url regex accepts it. -/
def cellUrls (rows : List (List Cell)) : List String :=
  (rows.map (fun row => row.filterMap (fun c =>
    match c with
    | Cell.str s => if urlRegexMatch false (jsTrim s) then some (jsTrim s) else none
    | Cell.other => none))).flatten

/-- File utils `parseFile` after a successful read: scan plus `Set`-dedup. -/
def parseFileCells (rows : List (List Cell)) : List String :=
  dedupJs (cellUrls rows)

/-- Shorthand for building record fixtures. -/
def exRec (i : Nat) (u : String) (st : ExtractionStatus) (es : List String) : WebsiteData :=
  { id := i, url := u, status := st, emails := es, error := none, sourceUrl := none }

/-- Spec-side helper for the amended normalization claim: remove one
trailing slash (phrased over the reversed character list), then
lowercase. -/
def specDropSlashLower (s : String) : String :=
  ⟨((if s.data.reverse.head? = some '/' then s.data.reverse.tail.reverse else s.data)).map Char.toLower⟩

/-- The loop's net effect on the record list, relative to a snapshot
slice: records whose id is in the slice receive their finder outcome,
all others are untouched. -/
def updSnapshot (f : String → FinderOutcome) (items : List WebsiteData) (w : WebsiteData) :
    WebsiteData :=
  if (items.map WebsiteData.id).contains w.id then applyOutcome f w else w

/-- Fixture: the 4-record statistics example (2 COMPLETED with emails,
1 FAILED, 1 IDLE). -/
def c4Records : List WebsiteData :=
  [exRec 0 "a.com" ExtractionStatus.COMPLETED ["x@a.com"],
   exRec 1 "b.com" ExtractionStatus.COMPLETED ["y@b.com"],
   exRec 2 "c.com" ExtractionStatus.FAILED [],
   exRec 3 "d.com" ExtractionStatus.IDLE []]

/-- Fixture: 40 processed records, 23 of them COMPLETED with an email and
17 FAILED — an input where the binary64 success rate (57) differs from the
exact rounded rational (58). -/
def c4divRecords : List WebsiteData :=
  (List.range 23).map (fun i => exRec i "a.com" ExtractionStatus.COMPLETED ["x@a.com"]) ++
  (List.range 17).map (fun i => exRec (23 + i) "b.com" ExtractionStatus.FAILED [])

/-- Fixture: the save-and-clear example state (`a.com` COMPLETED with one
email, `b.com` FAILED), empty history. -/
def c5State : AppState :=
  { websites := [exRec 0 "a.com" ExtractionStatus.COMPLETED ["a@a.com"],
                 exRec 1 "b.com" ExtractionStatus.FAILED []],
    isProcessing := false, targetAudience := "", history := [],
    notification := none, nextId := 2 }

/-- Fixture: a not-running state with three IDLE records. -/
def c1State : AppState :=
  { websites := [exRec 0 "a.com" ExtractionStatus.IDLE [],
                 exRec 1 "b.com" ExtractionStatus.IDLE [],
                 exRec 2 "c.com" ExtractionStatus.IDLE []],
    isProcessing := false, targetAudience := "", history := [],
    notification := none, nextId := 3 }

/-- Fixture: a finder that answers `a.com`, rejects `b.com` with an HTTP
429 error, and would answer anything else. -/
def c1Finder : String → FinderOutcome := fun u =>
  if u = "a.com" then FinderOutcome.ok ["a@a.com"]
  else if u = "b.com" then FinderOutcome.err { status := some 429, code := none, message := none }
  else FinderOutcome.ok ["c@c.com"]

/-- Fixture: a state with one active record and one history entry, for
exercising the duplicate/history skip counters. -/
def c3State : AppState :=
  { websites := [exRec 0 "a.com" ExtractionStatus.IDLE []],
    isProcessing := false, targetAudience := "", history := [("b.com", [])],
    notification := none, nextId := 1 }

/-- The record-list invariant every operation maintains: ids are
pairwise distinct and below the fresh-id counter, no record is ever
PENDING, and only COMPLETED records can carry a non-empty email list. -/
def StateInv (st : AppState) : Prop :=
  (st.websites.map WebsiteData.id).Nodup ∧
  (∀ w ∈ st.websites, w.id < st.nextId) ∧
  (∀ w ∈ st.websites, w.status ≠ ExtractionStatus.PENDING) ∧
  (∀ w ∈ st.websites, w.status ≠ ExtractionStatus.COMPLETED → w.emails = [])

/-! ## Helper lemmas -/

theorem natRound_div (f p : ℕ) (hp : 0 < p) :
    (((2 * (100 * f) + p) / (2 * p) : ℕ) : ℤ) = round ((100 * f : ℚ) / p) := by
  have hp0 : (p : ℚ) ≠ 0 := Nat.cast_ne_zero.mpr hp.ne'
  rw [round_eq]
  have h2 : (100 * f : ℚ) / p + 1 / 2 = ((2 * (100 * f) + p : ℕ) : ℚ) / ((2 * p : ℕ) : ℚ) := by
    push_cast
    field_simp
    ring
  rw [h2, Rat.floor_natCast_div_natCast, Int.natCast_div]

theorem emails_pos_iff (w : WebsiteData) :
    decide (0 < w.emails.length) = decide (w.emails ≠ []) := by
  cases h : w.emails <;> simp [h]

/-! ## C4 — derived statistics -/

theorem log2Aux_bounds : ∀ (fuel n : ℕ), n ≤ fuel → 1 ≤ n →
    2 ^ log2Aux fuel n ≤ n ∧ n < 2 ^ (log2Aux fuel n + 1) := by
  intro fuel
  induction fuel with
  | zero =>
    intro n h1 h2
    exact absurd h1 (by omega)
  | succ fuel ih =>
    intro n h1 h2
    by_cases h : 2 ≤ n
    · have hrec := ih (n / 2) (by omega) (by omega)
      have heq : log2Aux (fuel + 1) n = log2Aux fuel (n / 2) + 1 := by
        simp [log2Aux, h]
      rw [heq]
      have e1 : 2 ^ (log2Aux fuel (n / 2) + 1) = 2 * 2 ^ (log2Aux fuel (n / 2)) := by
        rw [pow_succ]; ring
      have e2 : 2 ^ (log2Aux fuel (n / 2) + 1 + 1) = 2 * 2 ^ (log2Aux fuel (n / 2) + 1) := by
        rw [pow_succ _ (log2Aux fuel (n / 2) + 1)]; ring
      omega
    · have heq : log2Aux (fuel + 1) n = 0 := by
        simp [log2Aux, h]
      rw [heq]
      omega

theorem natLog2F_bounds (n : ℕ) (h : 1 ≤ n) :
    2 ^ natLog2F n ≤ n ∧ n < 2 ^ (natLog2F n + 1) :=
  log2Aux_bounds n n le_rfl h

theorem natDivHE_err (a b : ℕ) (hb : 0 < b) :
    |((natDivHE a b : ℕ) : ℚ) - (a : ℚ) / b| ≤ 1 / 2 := by
  have hb0 : (0:ℚ) < (b:ℚ) := by exact_mod_cast hb
  have hmod : b * (a / b) + a % b = a := Nat.div_add_mod a b
  have hsplit : (a:ℚ) / b = ((a / b : ℕ) : ℚ) + ((a % b : ℕ) : ℚ) / b := by
    field_simp
    have hn : a / b * b + a % b = a := Nat.div_add_mod' a b
    exact_mod_cast hn.symm
  have hrnn : (0:ℚ) ≤ ((a % b : ℕ) : ℚ) / b := by positivity
  rw [natDivHE]
  split_ifs with h1 h2 h3
  · -- 2r < b: result a/b
    have hlt : ((a % b : ℕ) : ℚ) / b < 1 / 2 := by
      rw [div_lt_iff hb0]
      have : ((2 * (a % b) : ℕ) : ℚ) < (b : ℚ) := by exact_mod_cast h1
      push_cast at this
      linarith
    rw [hsplit, abs_le]
    constructor <;> linarith
  · -- b < 2r: result a/b + 1
    have hgt : 1 / 2 < ((a % b : ℕ) : ℚ) / b := by
      rw [lt_div_iff hb0]
      have : (b : ℚ) < ((2 * (a % b) : ℕ) : ℚ) := by exact_mod_cast h2
      push_cast at this
      linarith
    have hle1 : ((a % b : ℕ) : ℚ) / b ≤ 1 := by
      rw [div_le_one hb0]
      have : (a % b : ℕ) < b := Nat.mod_lt a hb
      exact_mod_cast this.le
    rw [hsplit, abs_le]
    push_cast
    constructor <;> linarith
  · -- tie, even: result a/b
    have heq2 : ((a % b : ℕ) : ℚ) / b = 1 / 2 := by
      rw [div_eq_iff (ne_of_gt hb0)]
      have : ((2 * (a % b) : ℕ) : ℚ) = (b : ℚ) := by exact_mod_cast (by omega : 2 * (a % b) = b)
      push_cast at this
      linarith
    rw [hsplit, abs_le]
    constructor <;> linarith
  · -- tie, odd: result a/b + 1
    have heq2 : ((a % b : ℕ) : ℚ) / b = 1 / 2 := by
      rw [div_eq_iff (ne_of_gt hb0)]
      have : ((2 * (a % b) : ℕ) : ℚ) = (b : ℚ) := by exact_mod_cast (by omega : 2 * (a % b) = b)
      push_cast at this
      linarith
    rw [hsplit, abs_le]
    push_cast
    constructor <;> linarith

theorem natRound_div_gen (a b : ℕ) (hb : 0 < b) :
    (((2 * a + b) / (2 * b) : ℕ) : ℤ) = round ((a:ℚ) / b) := by
  have hb0 : (b : ℚ) ≠ 0 := by
    have : (0:ℚ) < (b:ℚ) := by exact_mod_cast hb
    exact ne_of_gt this
  rw [round_eq]
  have h2 : (a:ℚ) / b + 1 / 2 = ((2 * a + b : ℕ) : ℚ) / ((2 * b : ℕ) : ℚ) := by
    push_cast
    field_simp
    ring
  rw [h2, Rat.floor_natCast_div_natCast, Int.natCast_div]

theorem round_diff_le (x y : ℚ) (h : |x - y| ≤ 1 / 2) : |round x - round y| ≤ 1 := by
  rw [abs_le] at h
  rw [round_eq, round_eq]
  have h3 : ⌊x + 1⌋ = ⌊x⌋ + 1 := Int.floor_add_one x
  have h1 : ⌊y + 1/2⌋ ≤ ⌊x + 1⌋ := Int.floor_mono (by linarith)
  have h2 : ⌊x⌋ ≤ ⌊y + 1/2⌋ := Int.floor_mono (by linarith)
  have h4 : ⌊x⌋ ≤ ⌊x + 1/2⌋ := Int.floor_mono (by linarith)
  have h5 : ⌊x + 1/2⌋ ≤ ⌊x + 1⌋ := Int.floor_mono (by linarith)
  rw [abs_le]
  omega

theorem ratLog2_bounds (a b : ℕ) (ha : 0 < a) (hb : 0 < b) :
    (2:ℚ) ^ (ratLog2 a b) ≤ (a:ℚ) / b ∧ (a:ℚ) / b < (2:ℚ) ^ (ratLog2 a b + 1) := by
  have hb2 := natLog2F_bounds b hb
  have hbj : b < 2 ^ (natLog2F b + 1) := hb2.2
  have hn0 : 1 ≤ (a * 2 ^ (natLog2F b + 1)) / b := by
    rw [Nat.one_le_div_iff hb]
    calc b ≤ 2 ^ (natLog2F b + 1) := hbj.le
    _ ≤ a * 2 ^ (natLog2F b + 1) := Nat.le_mul_of_pos_left _ ha
  have hnb := natLog2F_bounds _ hn0
  have hrl : ratLog2 a b =
      (natLog2F ((a * 2 ^ (natLog2F b + 1)) / b) : ℤ) - ((natLog2F b + 1 : ℕ) : ℤ) := by
    rw [ratLog2]
  have hlow : 2 ^ natLog2F ((a * 2 ^ (natLog2F b + 1)) / b) * b ≤ a * 2 ^ (natLog2F b + 1) := by
    calc 2 ^ natLog2F ((a * 2 ^ (natLog2F b + 1)) / b) * b
        ≤ ((a * 2 ^ (natLog2F b + 1)) / b) * b := Nat.mul_le_mul_right b hnb.1
    _ ≤ a * 2 ^ (natLog2F b + 1) := Nat.div_mul_le_self _ _
  have hhigh : a * 2 ^ (natLog2F b + 1) < 2 ^ (natLog2F ((a * 2 ^ (natLog2F b + 1)) / b) + 1) * b := by
    have hx : a * 2 ^ (natLog2F b + 1) < ((a * 2 ^ (natLog2F b + 1)) / b + 1) * b := by
      have h1 : b * ((a * 2 ^ (natLog2F b + 1)) / b) + (a * 2 ^ (natLog2F b + 1)) % b
          = a * 2 ^ (natLog2F b + 1) := Nat.div_add_mod _ b
      have h2 : (a * 2 ^ (natLog2F b + 1)) % b < b := Nat.mod_lt _ hb
      have h3 : ((a * 2 ^ (natLog2F b + 1)) / b + 1) * b
          = b * ((a * 2 ^ (natLog2F b + 1)) / b) + b := by ring
      linarith
    calc a * 2 ^ (natLog2F b + 1) < ((a * 2 ^ (natLog2F b + 1)) / b + 1) * b := hx
    _ ≤ 2 ^ (natLog2F ((a * 2 ^ (natLog2F b + 1)) / b) + 1) * b :=
        Nat.mul_le_mul_right b hnb.2
  have hb0 : (0:ℚ) < (b:ℚ) := by exact_mod_cast hb
  have hj0 : (0:ℚ) < (2:ℚ) ^ ((natLog2F b + 1 : ℕ) : ℤ) := zpow_pos (by norm_num) _
  constructor
  · rw [hrl, zpow_sub₀ (two_ne_zero), div_le_div_iff hj0 hb0, zpow_natCast, zpow_natCast]
    exact_mod_cast hlow
  · rw [hrl, sub_add_eq_add_sub, zpow_sub₀ (two_ne_zero), div_lt_div_iff hb0 hj0]
    rw [show ((natLog2F ((a * 2 ^ (natLog2F b + 1)) / b) : ℤ) + 1)
        = ((natLog2F ((a * 2 ^ (natLog2F b + 1)) / b) + 1 : ℕ) : ℤ) from by push_cast; ring]
    rw [zpow_natCast, zpow_natCast]
    exact_mod_cast hhigh

theorem fpDiv_err (f p : ℕ) (hf : 0 < f) (hp : 0 < p) :
    |((fpDiv f p).1 : ℚ) * (2:ℚ) ^ (fpDiv f p).2 - (f:ℚ) / p|
      ≤ ((f:ℚ) / p) * (2:ℚ) ^ (-53 : ℤ) := by
  obtain ⟨hlow, hhigh⟩ := ratLog2_bounds f p hf hp
  have hp0 : (0:ℚ) < (p:ℚ) := by exact_mod_cast hp
  have hc : (0:ℚ) < (2:ℚ) ^ (ratLog2 f p - 52) := zpow_pos (by norm_num) _
  have hbound : (1/2 : ℚ) * (2:ℚ) ^ (ratLog2 f p - 52) ≤ ((f:ℚ) / p) * (2:ℚ) ^ (-53 : ℤ) := by
    have he : (1/2 : ℚ) * (2:ℚ) ^ (ratLog2 f p - 52)
        = (2:ℚ) ^ (ratLog2 f p) * (2:ℚ) ^ (-53:ℤ) := by
      rw [← zpow_add₀ (two_ne_zero : (2:ℚ) ≠ 0) (ratLog2 f p) (-53:ℤ)]
      rw [show (1/2 : ℚ) = (2:ℚ) ^ (-1 : ℤ) from by rw [zpow_neg, zpow_one, one_div]]
      rw [← zpow_add₀ (two_ne_zero : (2:ℚ) ≠ 0)]
      congr 1
      ring
    rw [he]
    exact mul_le_mul_of_nonneg_right hlow (zpow_pos (by norm_num) _).le
  by_cases hs : (0:ℤ) ≤ 52 - ratLog2 f p
  · have h1 : fpDiv f p
        = (natDivHE (f * 2 ^ (52 - ratLog2 f p).toNat) p, ratLog2 f p - 52) := by
      simp only [fpDiv]
      rw [if_pos hs]
    rw [h1]
    show |((natDivHE (f * 2 ^ (52 - ratLog2 f p).toNat) p : ℕ) : ℚ)
        * (2:ℚ) ^ (ratLog2 f p - 52) - (f:ℚ) / p| ≤ ((f:ℚ) / p) * (2:ℚ) ^ (-53 : ℤ)
    have herr := natDivHE_err (f * 2 ^ (52 - ratLog2 f p).toNat) p hp
    have hid : (((f * 2 ^ (52 - ratLog2 f p).toNat : ℕ) : ℚ) / p)
        * (2:ℚ) ^ (ratLog2 f p - 52) = (f:ℚ) / p := by
      have hA : ((f * 2 ^ (52 - ratLog2 f p).toNat : ℕ) : ℚ)
          = (f:ℚ) * (2:ℚ) ^ ((52 - ratLog2 f p).toNat : ℤ) := by
        push_cast [zpow_natCast]
        ring
      rw [hA, Int.toNat_of_nonneg hs]
      rw [div_mul_eq_mul_div, mul_assoc, ← zpow_add₀ (two_ne_zero : (2:ℚ) ≠ 0)]
      rw [show (52 - ratLog2 f p) + (ratLog2 f p - 52) = (0:ℤ) from by ring]
      rw [zpow_zero, mul_one]
    have hstep : |((natDivHE (f * 2 ^ (52 - ratLog2 f p).toNat) p : ℕ) : ℚ)
        * (2:ℚ) ^ (ratLog2 f p - 52)
        - (((f * 2 ^ (52 - ratLog2 f p).toNat : ℕ) : ℚ) / p) * (2:ℚ) ^ (ratLog2 f p - 52)|
        ≤ (1/2 : ℚ) * (2:ℚ) ^ (ratLog2 f p - 52) := by
      rw [← sub_mul, abs_mul, abs_of_pos hc, mul_comm (1/2 : ℚ) ((2:ℚ) ^ (ratLog2 f p - 52))]
      rw [mul_comm _ ((2:ℚ) ^ (ratLog2 f p - 52))]
      exact mul_le_mul_of_nonneg_left herr hc.le
    calc |((natDivHE (f * 2 ^ (52 - ratLog2 f p).toNat) p : ℕ) : ℚ)
        * (2:ℚ) ^ (ratLog2 f p - 52) - (f:ℚ) / p|
        = |((natDivHE (f * 2 ^ (52 - ratLog2 f p).toNat) p : ℕ) : ℚ)
          * (2:ℚ) ^ (ratLog2 f p - 52)
          - (((f * 2 ^ (52 - ratLog2 f p).toNat : ℕ) : ℚ) / p)
          * (2:ℚ) ^ (ratLog2 f p - 52)| := by rw [hid]
      _ ≤ (1/2 : ℚ) * (2:ℚ) ^ (ratLog2 f p - 52) := hstep
      _ ≤ ((f:ℚ) / p) * (2:ℚ) ^ (-53 : ℤ) := hbound
  · have ht : (0:ℤ) ≤ ratLog2 f p - 52 := by omega
    have hB : 0 < p * 2 ^ (ratLog2 f p - 52).toNat :=
      Nat.mul_pos hp (Nat.pos_pow_of_pos _ (by norm_num))
    have h1 : fpDiv f p
        = (natDivHE f (p * 2 ^ (ratLog2 f p - 52).toNat), ratLog2 f p - 52) := by
      simp only [fpDiv]
      rw [if_neg hs]
    rw [h1]
    show |((natDivHE f (p * 2 ^ (ratLog2 f p - 52).toNat) : ℕ) : ℚ)
        * (2:ℚ) ^ (ratLog2 f p - 52) - (f:ℚ) / p| ≤ ((f:ℚ) / p) * (2:ℚ) ^ (-53 : ℤ)
    have herr := natDivHE_err f (p * 2 ^ (ratLog2 f p - 52).toNat) hB
    have hid : ((f:ℚ) / ((p * 2 ^ (ratLog2 f p - 52).toNat : ℕ) : ℚ))
        * (2:ℚ) ^ (ratLog2 f p - 52) = (f:ℚ) / p := by
      have hBc : ((p * 2 ^ (ratLog2 f p - 52).toNat : ℕ) : ℚ)
          = (p:ℚ) * (2:ℚ) ^ ((ratLog2 f p - 52).toNat : ℤ) := by
        push_cast [zpow_natCast]
        ring
      rw [hBc, Int.toNat_of_nonneg ht, div_mul_eq_mul_div]
      rw [mul_comm (p:ℚ) ((2:ℚ) ^ (ratLog2 f p - 52))]
      rw [mul_comm (f:ℚ) ((2:ℚ) ^ (ratLog2 f p - 52))]
      exact mul_div_mul_left (f:ℚ) (p:ℚ) hc.ne'
    have hstep : |((natDivHE f (p * 2 ^ (ratLog2 f p - 52).toNat) : ℕ) : ℚ)
        * (2:ℚ) ^ (ratLog2 f p - 52)
        - ((f:ℚ) / ((p * 2 ^ (ratLog2 f p - 52).toNat : ℕ) : ℚ))
        * (2:ℚ) ^ (ratLog2 f p - 52)|
        ≤ (1/2 : ℚ) * (2:ℚ) ^ (ratLog2 f p - 52) := by
      rw [← sub_mul, abs_mul, abs_of_pos hc, mul_comm (1/2 : ℚ) ((2:ℚ) ^ (ratLog2 f p - 52))]
      rw [mul_comm _ ((2:ℚ) ^ (ratLog2 f p - 52))]
      exact mul_le_mul_of_nonneg_left herr hc.le
    calc |((natDivHE f (p * 2 ^ (ratLog2 f p - 52).toNat) : ℕ) : ℚ)
        * (2:ℚ) ^ (ratLog2 f p - 52) - (f:ℚ) / p|
        = |((natDivHE f (p * 2 ^ (ratLog2 f p - 52).toNat) : ℕ) : ℚ)
          * (2:ℚ) ^ (ratLog2 f p - 52)
          - ((f:ℚ) / ((p * 2 ^ (ratLog2 f p - 52).toNat : ℕ) : ℚ))
          * (2:ℚ) ^ (ratLog2 f p - 52)| := by rw [hid]
      _ ≤ (1/2 : ℚ) * (2:ℚ) ^ (ratLog2 f p - 52) := hstep
      _ ≤ ((f:ℚ) / p) * (2:ℚ) ^ (-53 : ℤ) := hbound

theorem fpMul100_err (m : ℕ) (g : ℤ) :
    |((fpMul100 (m, g)).1 : ℚ) * (2:ℚ) ^ (fpMul100 (m, g)).2 - 100 * ((m:ℚ) * (2:ℚ) ^ g)|
      ≤ (100 * ((m:ℚ) * (2:ℚ) ^ g)) * (2:ℚ) ^ (-53 : ℤ) := by
  by_cases hL : natLog2F (100 * m) ≤ 52
  · have h1 : fpMul100 (m, g) = (100 * m, g) := by
      simp only [fpMul100]
      rw [if_pos hL]
    rw [h1]
    show |((100 * m : ℕ) : ℚ) * (2:ℚ) ^ g - 100 * ((m:ℚ) * (2:ℚ) ^ g)| ≤ _
    rw [show ((100 * m : ℕ) : ℚ) * (2:ℚ) ^ g - 100 * ((m:ℚ) * (2:ℚ) ^ g) = 0 from by
      push_cast; ring]
    rw [abs_zero]
    positivity
  · have hm1 : 1 ≤ 100 * m := by
      by_contra hm0
      have : 100 * m = 0 := by omega
      rw [this] at hL
      exact hL (by simp [natLog2F, log2Aux])
    have hnb := natLog2F_bounds (100 * m) hm1
    have hLgt : 52 < natLog2F (100 * m) := by omega
    have hDpos : 0 < 2 ^ (natLog2F (100 * m) - 52) := Nat.pos_pow_of_pos _ (by norm_num)
    have h1 : fpMul100 (m, g)
        = (natDivHE (100 * m) (2 ^ (natLog2F (100 * m) - 52)),
           g + ((natLog2F (100 * m) - 52 : ℕ) : ℤ)) := by
      simp only [fpMul100]
      rw [if_neg hL]
    rw [h1]
    show |((natDivHE (100 * m) (2 ^ (natLog2F (100 * m) - 52)) : ℕ) : ℚ)
        * (2:ℚ) ^ (g + ((natLog2F (100 * m) - 52 : ℕ) : ℤ)) - 100 * ((m:ℚ) * (2:ℚ) ^ g)| ≤ _
    have hc : (0:ℚ) < (2:ℚ) ^ (g + ((natLog2F (100 * m) - 52 : ℕ) : ℤ)) :=
      zpow_pos (by norm_num) _
    have herr := natDivHE_err (100 * m) (2 ^ (natLog2F (100 * m) - 52)) hDpos
    have hid : (((100 * m : ℕ) : ℚ) / ((2 ^ (natLog2F (100 * m) - 52) : ℕ) : ℚ))
        * (2:ℚ) ^ (g + ((natLog2F (100 * m) - 52 : ℕ) : ℤ)) = 100 * ((m:ℚ) * (2:ℚ) ^ g) := by
      have hDc : ((2 ^ (natLog2F (100 * m) - 52) : ℕ) : ℚ)
          = (2:ℚ) ^ ((natLog2F (100 * m) - 52 : ℕ) : ℤ) := by
        push_cast [zpow_natCast]
        ring
      rw [hDc, div_mul_eq_mul_div, zpow_add₀ (two_ne_zero : (2:ℚ) ≠ 0)]
      rw [show ((100 * m : ℕ) : ℚ) = 100 * (m:ℚ) from by push_cast; ring]
      rw [mul_comm ((2:ℚ) ^ g) ((2:ℚ) ^ ((natLog2F (100 * m) - 52 : ℕ) : ℤ))]
      rw [show 100 * (m:ℚ) * ((2:ℚ) ^ ((natLog2F (100 * m) - 52 : ℕ) : ℤ) * (2:ℚ) ^ g)
          = (100 * ((m:ℚ) * (2:ℚ) ^ g)) * (2:ℚ) ^ ((natLog2F (100 * m) - 52 : ℕ) : ℤ)
          from by ring]
      rw [mul_div_assoc]
      rw [div_self (zpow_pos (by norm_num : (0:ℚ) < 2) _).ne', mul_one]
    have hstep : |((natDivHE (100 * m) (2 ^ (natLog2F (100 * m) - 52)) : ℕ) : ℚ)
        * (2:ℚ) ^ (g + ((natLog2F (100 * m) - 52 : ℕ) : ℤ))
        - (((100 * m : ℕ) : ℚ) / ((2 ^ (natLog2F (100 * m) - 52) : ℕ) : ℚ))
        * (2:ℚ) ^ (g + ((natLog2F (100 * m) - 52 : ℕ) : ℤ))|
        ≤ (1/2 : ℚ) * (2:ℚ) ^ (g + ((natLog2F (100 * m) - 52 : ℕ) : ℤ)) := by
      rw [← sub_mul, abs_mul, abs_of_pos hc]
      rw [mul_comm (1/2 : ℚ) _, mul_comm _ ((2:ℚ) ^ (g + ((natLog2F (100 * m) - 52 : ℕ) : ℤ)))]
      exact mul_le_mul_of_nonneg_left herr hc.le
    have hbound : (1/2 : ℚ) * (2:ℚ) ^ (g + ((natLog2F (100 * m) - 52 : ℕ) : ℤ))
        ≤ (100 * ((m:ℚ) * (2:ℚ) ^ g)) * (2:ℚ) ^ (-53 : ℤ) := by
      have hLle : (2:ℚ) ^ ((natLog2F (100 * m) : ℕ) : ℤ) ≤ ((100 * m : ℕ) : ℚ) := by
        rw [zpow_natCast]
        exact_mod_cast hnb.1
      have he : (1/2 : ℚ) * (2:ℚ) ^ (g + ((natLog2F (100 * m) - 52 : ℕ) : ℤ))
          = (2:ℚ) ^ ((natLog2F (100 * m) : ℕ) : ℤ) * ((2:ℚ) ^ g * (2:ℚ) ^ (-53 : ℤ)) := by
        rw [show (1/2 : ℚ) = (2:ℚ) ^ (-1 : ℤ) from by rw [zpow_neg, zpow_one, one_div]]
        rw [← zpow_add₀ (two_ne_zero : (2:ℚ) ≠ 0), ← zpow_add₀ (two_ne_zero : (2:ℚ) ≠ 0),
            ← zpow_add₀ (two_ne_zero : (2:ℚ) ≠ 0)]
        congr 1
        have : ((natLog2F (100 * m) - 52 : ℕ) : ℤ) = (natLog2F (100 * m) : ℤ) - 52 := by
          omega
        omega
      rw [he]
      have hrest : (0:ℚ) ≤ (2:ℚ) ^ g * (2:ℚ) ^ (-53 : ℤ) := by positivity
      calc (2:ℚ) ^ ((natLog2F (100 * m) : ℕ) : ℤ) * ((2:ℚ) ^ g * (2:ℚ) ^ (-53 : ℤ))
          ≤ ((100 * m : ℕ) : ℚ) * ((2:ℚ) ^ g * (2:ℚ) ^ (-53 : ℤ)) :=
            mul_le_mul_of_nonneg_right hLle hrest
        _ = (100 * ((m:ℚ) * (2:ℚ) ^ g)) * (2:ℚ) ^ (-53 : ℤ) := by push_cast; ring
    calc |((natDivHE (100 * m) (2 ^ (natLog2F (100 * m) - 52)) : ℕ) : ℚ)
        * (2:ℚ) ^ (g + ((natLog2F (100 * m) - 52 : ℕ) : ℤ)) - 100 * ((m:ℚ) * (2:ℚ) ^ g)|
        = |((natDivHE (100 * m) (2 ^ (natLog2F (100 * m) - 52)) : ℕ) : ℚ)
          * (2:ℚ) ^ (g + ((natLog2F (100 * m) - 52 : ℕ) : ℤ))
          - (((100 * m : ℕ) : ℚ) / ((2 ^ (natLog2F (100 * m) - 52) : ℕ) : ℚ))
          * (2:ℚ) ^ (g + ((natLog2F (100 * m) - 52 : ℕ) : ℤ))| := by rw [hid]
      _ ≤ (1/2 : ℚ) * (2:ℚ) ^ (g + ((natLog2F (100 * m) - 52 : ℕ) : ℤ)) := hstep
      _ ≤ (100 * ((m:ℚ) * (2:ℚ) ^ g)) * (2:ℚ) ^ (-53 : ℤ) := hbound

theorem fpMathRound_eq (m : ℕ) (g : ℤ) :
    ((fpMathRound (m, g) : ℕ) : ℤ) = round ((m:ℚ) * (2:ℚ) ^ g) := by
  by_cases hg : 0 ≤ g
  · have h1 : fpMathRound (m, g) = m * 2 ^ g.toNat := by
      simp only [fpMathRound]
      rw [if_pos hg]
    rw [h1]
    have h2 : (m:ℚ) * (2:ℚ) ^ g = ((m * 2 ^ g.toNat : ℕ) : ℚ) := by
      push_cast
      rw [← zpow_natCast (2:ℚ) g.toNat, Int.toNat_of_nonneg hg]
    rw [h2, round_natCast]
  · have h1 : fpMathRound (m, g) = (2 * m + 2 ^ (-g).toNat) / (2 * 2 ^ (-g).toNat) := by
      simp only [fpMathRound]
      rw [if_neg hg]
    rw [h1]
    have hD : 0 < 2 ^ (-g).toNat := Nat.pos_pow_of_pos _ (by norm_num)
    have h2 : (m:ℚ) * (2:ℚ) ^ g = (m:ℚ) / ((2 ^ (-g).toNat : ℕ) : ℚ) := by
      have hDc : ((2 ^ (-g).toNat : ℕ) : ℚ) = (2:ℚ) ^ (((-g).toNat : ℕ) : ℤ) := by
        push_cast [zpow_natCast]
        ring
      rw [hDc, Int.toNat_of_nonneg (by omega : (0:ℤ) ≤ -g), div_eq_mul_inv, ← zpow_neg, neg_neg]
    rw [h2, ← natRound_div_gen m (2 ^ (-g).toNat) hD]

theorem natDivHE_zero (b : ℕ) (hb : 0 < b) : natDivHE 0 b = 0 := by
  rw [natDivHE]
  simp [Nat.zero_div, Nat.zero_mod, hb]

theorem jsPercent_zero (p : ℕ) (hp : 0 < p) : jsPercent 0 p = 0 := by
  have hfd : (fpDiv 0 p).1 = 0 := by
    by_cases hs : (0:ℤ) ≤ 52 - ratLog2 0 p
    · have h1 : fpDiv 0 p = (natDivHE (0 * 2 ^ (52 - ratLog2 0 p).toNat) p, ratLog2 0 p - 52) := by
        simp only [fpDiv]
        rw [if_pos hs]
      rw [h1]
      show natDivHE (0 * 2 ^ (52 - ratLog2 0 p).toNat) p = 0
      rw [Nat.zero_mul]
      exact natDivHE_zero p hp
    · have h1 : fpDiv 0 p = (natDivHE 0 (p * 2 ^ (ratLog2 0 p - 52).toNat), ratLog2 0 p - 52) := by
        simp only [fpDiv]
        rw [if_neg hs]
      rw [h1]
      show natDivHE 0 (p * 2 ^ (ratLog2 0 p - 52).toNat) = 0
      exact natDivHE_zero _ (Nat.mul_pos hp (Nat.pos_pow_of_pos _ (by norm_num)))
  have hfm : fpMul100 (fpDiv 0 p) = (0, (fpDiv 0 p).2) := by
    have heta : fpDiv 0 p = ((fpDiv 0 p).1, (fpDiv 0 p).2) := rfl
    rw [heta, hfd]
    simp [fpMul100, natLog2F, log2Aux]
  rw [jsPercent, hfm]
  by_cases hg : (0:ℤ) ≤ (fpDiv 0 p).2
  · have : fpMathRound (0, (fpDiv 0 p).2) = 0 * 2 ^ ((fpDiv 0 p).2).toNat := by
      simp only [fpMathRound]
      rw [if_pos hg]
    rw [this, Nat.zero_mul]
  · have h1 : fpMathRound (0, (fpDiv 0 p).2)
        = (2 * 0 + 2 ^ (-(fpDiv 0 p).2).toNat) / (2 * 2 ^ (-(fpDiv 0 p).2).toNat) := by
      simp only [fpMathRound]
      rw [if_neg hg]
    rw [h1]
    apply Nat.div_eq_of_lt
    have : 0 < 2 ^ (-(fpDiv 0 p).2).toNat := Nat.pos_pow_of_pos _ (by norm_num)
    omega

theorem jsPercent_close (f p : ℕ) (hp : 0 < p) (hfp : f ≤ p) :
    ∃ V : ℚ, ((jsPercent f p : ℕ) : ℤ) = round V ∧
      |V - (100 * (f:ℚ)) / p| ≤ 1/4 ∧ 0 ≤ V := by
  have hp0 : (0:ℚ) < (p:ℚ) := by exact_mod_cast hp
  rcases Nat.eq_zero_or_pos f with hf0 | hf0
  · subst hf0
    refine ⟨0, ?_, ?_, le_refl 0⟩
    · rw [jsPercent_zero p hp]
      simp
    · simp
  · refine ⟨((fpMul100 (fpDiv f p)).1 : ℚ) * (2:ℚ) ^ (fpMul100 (fpDiv f p)).2, ?_, ?_, ?_⟩
    · exact fpMathRound_eq (fpMul100 (fpDiv f p)).1 (fpMul100 (fpDiv f p)).2
    · have h1 := fpDiv_err f p hf0 hp
      have h2 : |((fpMul100 (fpDiv f p)).1 : ℚ) * (2:ℚ) ^ (fpMul100 (fpDiv f p)).2
          - 100 * (((fpDiv f p).1 : ℚ) * (2:ℚ) ^ (fpDiv f p).2)|
          ≤ (100 * (((fpDiv f p).1 : ℚ) * (2:ℚ) ^ (fpDiv f p).2)) * (2:ℚ) ^ (-53 : ℤ) :=
        fpMul100_err (fpDiv f p).1 (fpDiv f p).2
      have hfp1 : (f:ℚ) / p ≤ 1 := by
        rw [div_le_one hp0]
        exact_mod_cast hfp
      have hfpnn : (0:ℚ) ≤ (f:ℚ) / p := by positivity
      have hεpos : (0:ℚ) < (2:ℚ) ^ (-53 : ℤ) := zpow_pos (by norm_num) _
      have hε : (2:ℚ) ^ (-53 : ℤ) ≤ 1 / 10000 := by
        rw [show ((-53 : ℤ)) = -(53:ℕ) from rfl, zpow_neg, zpow_natCast]
        rw [inv_le_comm₀ (by positivity) (by norm_num)]
        norm_num
      have hd1nn : (0:ℚ) ≤ ((fpDiv f p).1 : ℚ) * (2:ℚ) ^ (fpDiv f p).2 := by positivity
      have habs1 := abs_le.mp h1
      have hd1le : ((fpDiv f p).1 : ℚ) * (2:ℚ) ^ (fpDiv f p).2 ≤ 2 := by
        have : ((f:ℚ) / p) * (2:ℚ) ^ (-53 : ℤ) ≤ 1 * (1/10000) := by
          apply mul_le_mul hfp1 hε hεpos.le (by norm_num)
        nlinarith
      have habs2 := abs_le.mp h2
      have hxid : (100 * (f:ℚ)) / p = 100 * ((f:ℚ) / p) := by ring
      rw [hxid]
      have hb2 : (100 * (((fpDiv f p).1 : ℚ) * (2:ℚ) ^ (fpDiv f p).2)) * (2:ℚ) ^ (-53 : ℤ)
          ≤ 200 * (1/10000) := by
        have h200 : 100 * (((fpDiv f p).1 : ℚ) * (2:ℚ) ^ (fpDiv f p).2) ≤ 200 := by nlinarith
        have hnn : (0:ℚ) ≤ 100 * (((fpDiv f p).1 : ℚ) * (2:ℚ) ^ (fpDiv f p).2) := by positivity
        calc (100 * (((fpDiv f p).1 : ℚ) * (2:ℚ) ^ (fpDiv f p).2)) * (2:ℚ) ^ (-53 : ℤ)
            ≤ (100 * (((fpDiv f p).1 : ℚ) * (2:ℚ) ^ (fpDiv f p).2)) * (1/10000) :=
              mul_le_mul_of_nonneg_left hε hnn
          _ ≤ 200 * (1/10000) := by nlinarith
      have hb1 : ((f:ℚ) / p) * (2:ℚ) ^ (-53 : ℤ) ≤ 1/10000 := by
        calc ((f:ℚ) / p) * (2:ℚ) ^ (-53 : ℤ) ≤ 1 * (2:ℚ) ^ (-53 : ℤ) :=
              mul_le_mul_of_nonneg_right hfp1 hεpos.le
          _ ≤ 1/10000 := by linarith
      generalize heps : (2:ℚ) ^ (-53 : ℤ) = eps at habs1 habs2 hb1 hb2
      generalize hdg : ((fpDiv f p).1 : ℚ) * (2:ℚ) ^ (fpDiv f p).2 = d1 at habs1 habs2 hb2
      generalize hvg : ((fpMul100 (fpDiv f p)).1 : ℚ) * (2:ℚ) ^ (fpMul100 (fpDiv f p)).2 = V
        at habs2 ⊢
      rw [abs_le]
      constructor
      · linarith [habs1.1, habs1.2, habs2.1, habs2.2, hb1, hb2]
      · linarith [habs1.1, habs1.2, habs2.1, habs2.2, hb1, hb2]
    · positivity

theorem jsPercent_le_100 (f p : ℕ) (hp : 0 < p) (hfp : f ≤ p) : jsPercent f p ≤ 100 := by
  obtain ⟨V, hEq, hClose, hV0⟩ := jsPercent_close f p hp hfp
  have hp0 : (0:ℚ) < (p:ℚ) := by exact_mod_cast hp
  have hx : (100 * (f:ℚ)) / p ≤ 100 := by
    rw [div_le_iff hp0]
    have : (f:ℚ) ≤ (p:ℚ) := by exact_mod_cast hfp
    nlinarith
  have hV : V ≤ 100 + 1/4 := by
    have := abs_le.mp hClose
    linarith [this.2]
  have hround : round V ≤ 100 := by
    rw [round_eq]
    have hlt : V + 1/2 < ((101 : ℤ) : ℚ) := by push_cast; linarith
    have h2 := Int.floor_lt.mpr hlt
    omega
  have hz : ((jsPercent f p : ℕ) : ℤ) ≤ 100 := hEq ▸ hround
  exact_mod_cast hz

/-- C4 fails on the code: with 23 of 40 processed records found,
`(23/40)*100` in binary64 is 57.49999999999999 and `Math.round` yields 57,
while the claimed exact `round(100*23/40) = round(57.5)` is 58 — the
claimed equality does not hold of the program. -/
theorem stats_claim_counterexample :
    (stats c4divRecords).found = 23 ∧
    (stats c4divRecords).processed = 40 ∧
    (stats c4divRecords).successRate = 57 ∧
    ((stats c4divRecords).successRate : ℤ) ≠
      round ((100 * ((stats c4divRecords).found : ℚ)) /
        ((stats c4divRecords).processed : ℚ)) := by
  have hf : (stats c4divRecords).found = 23 := by decide
  have hp : (stats c4divRecords).processed = 40 := by decide
  have hs : (stats c4divRecords).successRate = 57 := by decide
  refine ⟨hf, hp, hs, ?_⟩
  rw [hf, hp, hs]
  have h58 := natRound_div 23 40 (by norm_num)
  intro hcontra
  rw [← h58] at hcontra
  norm_num at hcontra

/-- C4, amended: `total`, `processed` and `found` count as claimed and
`successRate` is 0 when nothing is processed; but the nonzero success
rate is `Math.round((found / processed) * 100)` computed in binary64
floating point, which only agrees with the claimed exact
`round(100*found/processed)` to within 1 (whenever found ≤ processed, as
in every reachable state); on the spec's 4-record example both give 67. -/
theorem stats_amended_spec (ws : List WebsiteData) :
    (stats ws).total = ws.length ∧
    (stats ws).processed = ws.countP isProcessed ∧
    (stats ws).found = ws.countP (fun w => decide (w.emails ≠ [])) ∧
    ((stats ws).processed = 0 → (stats ws).successRate = 0) ∧
    (0 < (stats ws).processed → (stats ws).found ≤ (stats ws).processed →
      |((stats ws).successRate : ℤ) -
        round ((100 * ((stats ws).found : ℚ)) / ((stats ws).processed : ℚ))| ≤ 1) ∧
    stats c4Records = { total := 4, processed := 3, found := 2, successRate := 67 } := by
  refine ⟨rfl, ?_, ?_, ?_, ?_, by decide⟩
  · rw [List.countP_eq_length_filter]
    rfl
  · rw [List.countP_eq_length_filter]
    show (ws.filter (fun w => decide (0 < w.emails.length))).length = _
    rw [List.filter_congr (fun w _ => emails_pos_iff w)]
  · intro h
    simp only [stats] at h ⊢
    rw [h]
    simp
  · intro hp hfp
    have hsr : (stats ws).successRate =
        if 0 < (stats ws).processed then jsPercent (stats ws).found (stats ws).processed
        else 0 := rfl
    rw [hsr, if_pos hp]
    obtain ⟨V, hEq, hClose, hV0⟩ := jsPercent_close (stats ws).found (stats ws).processed hp hfp
    rw [hEq]
    apply round_diff_le
    exact le_trans hClose (by norm_num)

/-- Witness for `stats_amended_spec` at the 4-record example. -/
theorem stats_amended_spec_witness :
    0 < (stats c4Records).processed ∧
    (stats c4Records).found ≤ (stats c4Records).processed ∧
    |((stats c4Records).successRate : ℤ) -
      round ((100 * ((stats c4Records).found : ℚ)) / ((stats c4Records).processed : ℚ))| ≤ 1 := by
  have H := stats_amended_spec c4Records
  exact ⟨by decide, by decide, H.2.2.2.2.1 (by decide) (by decide)⟩

/-! ## C8 — url normalization -/

theorem dropLast_eq_reverse_tail (l : List Char) :
    l.dropLast = l.reverse.tail.reverse := by
  induction l using List.reverseRecOn with
  | nil => rfl
  | append_singleton t c ih => simp

theorem stripSlash_spec (l : List Char) :
    stripSlash l = if l.reverse.head? = some '/' then l.reverse.tail.reverse else l := by
  rw [stripSlash, List.head?_reverse, dropLast_eq_reverse_tail]

theorem specDropSlashLower_eq (s : String) :
    specDropSlashLower s = ⟨(stripSlash s.data).map Char.toLower⟩ := by
  rw [specDropSlashLower, stripSlash_spec]

theorem stripScheme_https (x : List Char) :
    stripScheme (['h', 't', 't', 'p', 's', ':', '/', '/'] ++ x) = x := by
  rw [stripScheme, if_pos]
  · exact List.drop_left ['h', 't', 't', 'p', 's', ':', '/', '/'] x
  · rw [List.isPrefixOf_iff_prefix]
    exact List.prefix_append _ _

theorem stripScheme_http (x : List Char) :
    stripScheme (['h', 't', 't', 'p', ':', '/', '/'] ++ x) = x := by
  rw [stripScheme, if_neg, if_pos]
  · exact List.drop_left ['h', 't', 't', 'p', ':', '/', '/'] x
  · rw [List.isPrefixOf_iff_prefix]
    exact List.prefix_append _ _
  · simp [List.isPrefixOf]

theorem stripScheme_skip (x : List Char)
    (h1 : List.isPrefixOf ['h', 't', 't', 'p', 's', ':', '/', '/'] x = false)
    (h2 : List.isPrefixOf ['h', 't', 't', 'p', ':', '/', '/'] x = false) :
    stripScheme x = x := by
  rw [stripScheme, h1, h2]
  rfl

/-- C8 fails on the code: `normalizeUrl` strips the scheme before
lowercasing and case-sensitively, so an uppercase scheme survives into
the result, and it removes only a single trailing slash, so a doubled
trailing slash leaves one behind — contradicting both the claimed
equality and the claimed never-a-scheme/never-a-slash consequences. -/
theorem normalizeUrl_claim_counterexample :
    normalizeUrl "HTTP://a.com" = "http://a.com" ∧
    normalizeUrl "HTTP://a.com" ≠ "a.com" ∧
    List.isPrefixOf "http://".data (normalizeUrl "HTTP://a.com").data = true ∧
    normalizeUrl "a.com//" = "a.com/" ∧
    (normalizeUrl "a.com//").data.getLast? = some '/' := by
  exact ⟨by decide, by decide, by decide, by decide, by decide⟩

/-- C8 (amended): `normalizeUrl(url)` equals the lowercased form of url
after removing one leading literal lowercase `http://` or `https://`
prefix (matched case-sensitively, before lowercasing) and then removing
at most one trailing slash; the result can still begin with a scheme
prefix (uppercase or doubled scheme input) and can still end with a
slash (input ending in a doubled slash). -/
theorem normalizeUrl_amended (u : String) :
    (∀ r : String, u = "https://" ++ r → normalizeUrl u = specDropSlashLower r) ∧
    (∀ r : String, u = "http://" ++ r → normalizeUrl u = specDropSlashLower r) ∧
    ((∀ r : String, u ≠ "https://" ++ r) → (∀ r : String, u ≠ "http://" ++ r) →
      normalizeUrl u = specDropSlashLower u) := by
  refine ⟨?_, ?_, ?_⟩
  · intro r h
    subst h
    rw [normalizeUrl, String.data_append, specDropSlashLower_eq]
    have hd : "https://".data = ['h', 't', 't', 'p', 's', ':', '/', '/'] := rfl
    rw [hd, stripScheme_https]
  · intro r h
    subst h
    rw [normalizeUrl, String.data_append, specDropSlashLower_eq]
    have hd : "http://".data = ['h', 't', 't', 'p', ':', '/', '/'] := rfl
    rw [hd, stripScheme_http]
  · intro h1 h2
    rw [normalizeUrl, specDropSlashLower_eq]
    have hp1 : List.isPrefixOf ['h', 't', 't', 'p', 's', ':', '/', '/'] u.data = false := by
      by_contra hc
      rw [Bool.not_eq_false, List.isPrefixOf_iff_prefix] at hc
      obtain ⟨t, ht⟩ := hc
      exact h1 ⟨t⟩ (String.ext (by rw [String.data_append]; exact ht.symm))
    have hp2 : List.isPrefixOf ['h', 't', 't', 'p', ':', '/', '/'] u.data = false := by
      by_contra hc
      rw [Bool.not_eq_false, List.isPrefixOf_iff_prefix] at hc
      obtain ⟨t, ht⟩ := hc
      exact h2 ⟨t⟩ (String.ext (by rw [String.data_append]; exact ht.symm))
    rw [stripScheme_skip u.data hp1 hp2]

/-- Witness for `normalizeUrl_amended` at concrete inputs. -/
theorem normalizeUrl_amended_witness :
    normalizeUrl "https://A.com/" = specDropSlashLower "A.com/" ∧
    normalizeUrl "B.org" = specDropSlashLower "B.org" := by
  have H1 := (normalizeUrl_amended "https://A.com/").1 "A.com/" rfl
  have H2 := (normalizeUrl_amended "B.org").2.2
    (fun r h => by
      have h3 := congrArg (fun s => s.data.length) h
      simp [String.data_append] at h3)
    (fun r h => by
      have h3 := congrArg (fun s => s.data.length) h
      simp [String.data_append] at h3)
  exact ⟨H1, H2⟩

/-! ## C7 — url extractor output -/

theorem dedupJsAux_nodup (l : List String) : ∀ seen : List String,
    (dedupJsAux seen l).Nodup ∧ ∀ x ∈ dedupJsAux seen l, seen.contains x = false := by
  induction l with
  | nil => intro seen; exact ⟨List.nodup_nil, by intro x hx; simp [dedupJsAux] at hx⟩
  | cons a rest ih =>
    intro seen
    rw [dedupJsAux]
    by_cases ha : seen.contains a
    · rw [if_pos ha]
      exact ih seen
    · rw [if_neg ha]
      have h2 := ih (a :: seen)
      constructor
      · refine List.nodup_cons.mpr ⟨?_, h2.1⟩
        intro hmem
        have := h2.2 a hmem
        simp [List.contains_cons] at this
      · intro x hx
        rcases List.mem_cons.mp hx with h | h
        · subst h
          exact Bool.not_eq_true _ ▸ (by simpa using ha)
        · have := h2.2 x h
          simp [List.contains_cons] at this
          simp [this.2]

theorem dedupJsAux_sub (l : List String) : ∀ seen, ∀ x ∈ dedupJsAux seen l, x ∈ l := by
  induction l with
  | nil => intro seen x hx; simp [dedupJsAux] at hx
  | cons a rest ih =>
    intro seen x hx
    rw [dedupJsAux] at hx
    by_cases ha : seen.contains a
    · rw [if_pos ha] at hx
      exact List.mem_cons_of_mem a (ih seen x hx)
    · rw [if_neg ha] at hx
      rcases List.mem_cons.mp hx with h | h
      · simp [h]
      · exact List.mem_cons_of_mem a (ih (a :: seen) x h)

/-- C7 fails on the code: both extractors dedup with a JS `Set` over the
exact strings, not over normalized forms, so `"a.com"` and
`"https://a.com"` — equal after normalization — both survive
`parseText`. -/
theorem parseText_claim_counterexample :
    parseText "a.com,https://a.com" = ["a.com", "https://a.com"] ∧
    normalizeUrl "a.com" = normalizeUrl "https://a.com" := by
  exact ⟨by decide, by decide⟩

/-- C7 (amended): for any input text or tabular cell grid, the
extractor's output contains no two identical entries (the dedup is by
exact string, not by normalized form) and every entry matches the
permissive hostname-plus-path pattern (case-insensitively for text
input, case-sensitively for file input). -/
theorem extractor_output_spec (text : String) (rows : List (List Cell)) :
    (parseText text).Nodup ∧
    (∀ u ∈ parseText text, urlRegexMatch true u = true) ∧
    (parseFileCells rows).Nodup ∧
    (∀ u ∈ parseFileCells rows, urlRegexMatch false u = true) := by
  refine ⟨(dedupJsAux_nodup _ []).1, ?_, (dedupJsAux_nodup _ []).1, ?_⟩
  · intro u hu
    have hmem := dedupJsAux_sub _ [] u hu
    have hp := (List.mem_filter.mp hmem).2
    exact (Bool.and_eq_true _ _ |>.mp hp).2
  · intro u hu
    have hmem := dedupJsAux_sub _ [] u hu
    rw [cellUrls, List.mem_flatten] at hmem
    obtain ⟨l, hl, hul⟩ := hmem
    rw [List.mem_map] at hl
    obtain ⟨row, _, hrow⟩ := hl
    subst hrow
    rw [List.mem_filterMap] at hul
    obtain ⟨c, _, hc⟩ := hul
    cases c with
    | str s =>
      by_cases hm : urlRegexMatch false (jsTrim s) = true
      · simp only [hm, if_true] at hc
        cases hc
        exact hm
      · simp only [Bool.not_eq_true] at hm
        simp [hm] at hc
    | other => simp at hc

/-- Witness for `extractor_output_spec` at concrete inputs. -/
theorem extractor_output_spec_witness :
    (parseText "a.com").Nodup ∧ urlRegexMatch true "a.com" = true ∧
    (parseFileCells [[Cell.str "b.org"]]).Nodup ∧ urlRegexMatch false "b.org" = true := by
  have H := extractor_output_spec "a.com" [[Cell.str "b.org"]]
  exact ⟨H.1, H.2.1 "a.com" (by decide), H.2.2.1, H.2.2.2 "b.org" (by decide)⟩

/-! ## C6 — email finder -/

/-- C6: `findEmailsForUrl` (its effectful library calls as explicit
inputs) returns only entries that pass the email-shape test, and on the
successful transport path it returns exactly the email-shape-passing
entries of the model's `emails` array (so every non-matching entry is
discarded); unparseable response text, a falsy parse result, or a
missing/non-array `emails` field give the empty list without raising;
a missing API key or a thrown transport error is rethrown to the
caller. -/
theorem findEmails_spec (env : Option String) (transport : Except JsError (Option String))
    (jsonParse : String → Option JsValue) :
    (∀ es, findEmailsForUrl env transport jsonParse = Except.ok es →
      ∀ v ∈ es, emailTest (jsToString v) = true) ∧
    (∀ k t parsed xs, env = some k → transport = Except.ok t →
      jsonParse (cleanResponseText (t.getD "")) = some parsed →
      jsTruthy parsed = true → getEmailsField parsed = some (JsValue.jarr xs) →
      findEmailsForUrl env transport jsonParse =
        Except.ok (xs.filter (fun e => emailTest (jsToString e)))) ∧
    (∀ k t, env = some k → transport = Except.ok t →
      jsonParse (cleanResponseText (t.getD "")) = none →
      findEmailsForUrl env transport jsonParse = Except.ok []) ∧
    (∀ k t parsed, env = some k → transport = Except.ok t →
      jsonParse (cleanResponseText (t.getD "")) = some parsed →
      (jsTruthy parsed = false ∨ ∀ xs, getEmailsField parsed ≠ some (JsValue.jarr xs)) →
      findEmailsForUrl env transport jsonParse = Except.ok []) ∧
    (∀ k e, env = some k → transport = Except.error e →
      findEmailsForUrl env transport jsonParse = Except.error e) ∧
    (env = none → findEmailsForUrl env transport jsonParse = Except.error apiKeyError) := by
  refine ⟨?_, ?_, ?_, ?_, ?_, ?_⟩
  · intro es h v hv
    cases env with
    | none => simp [findEmailsForUrl] at h
    | some k =>
      cases transport with
      | error e => simp [findEmailsForUrl] at h
      | ok t =>
        rcases hp : jsonParse (cleanResponseText (t.getD "")) with _ | parsed
        · simp [findEmailsForUrl, hp] at h
          subst h
          simp at hv
        · by_cases ht : jsTruthy parsed = true
          · rcases hf : getEmailsField parsed with _ | v2
            · simp [findEmailsForUrl, hp, ht, hf] at h
              subst h
              simp at hv
            · cases v2 with
              | jarr xs =>
                simp [findEmailsForUrl, hp, ht, hf] at h
                subst h
                exact (List.mem_filter.mp hv).2
              | jnull =>
                simp [findEmailsForUrl, hp, ht, hf] at h
                subst h; simp at hv
              | jbool b =>
                simp [findEmailsForUrl, hp, ht, hf] at h
                subst h; simp at hv
              | jnum n =>
                simp [findEmailsForUrl, hp, ht, hf] at h
                subst h; simp at hv
              | jstr s =>
                simp [findEmailsForUrl, hp, ht, hf] at h
                subst h; simp at hv
              | jobj kvs =>
                simp [findEmailsForUrl, hp, ht, hf] at h
                subst h; simp at hv
          · rw [Bool.not_eq_true] at ht
            simp [findEmailsForUrl, hp, ht] at h
            subst h
            simp at hv
  · intro k t parsed xs hk ht hp htr hf
    subst hk; subst ht
    simp [findEmailsForUrl, hp, htr, hf]
  · intro k t hk ht hp
    subst hk; subst ht
    simp [findEmailsForUrl, hp]
  · intro k t parsed hk ht hp hcase
    subst hk; subst ht
    rcases hcase with hfalse | hnarr
    · simp [findEmailsForUrl, hp, hfalse]
    · by_cases htr : jsTruthy parsed = true
      · rcases hf : getEmailsField parsed with _ | v2
        · simp [findEmailsForUrl, hp, htr, hf]
        · cases v2 with
          | jarr xs => exact absurd hf (hnarr xs)
          | jnull => simp [findEmailsForUrl, hp, htr, hf]
          | jbool b => simp [findEmailsForUrl, hp, htr, hf]
          | jnum n => simp [findEmailsForUrl, hp, htr, hf]
          | jstr s => simp [findEmailsForUrl, hp, htr, hf]
          | jobj kvs => simp [findEmailsForUrl, hp, htr, hf]
      · rw [Bool.not_eq_true] at htr
        simp [findEmailsForUrl, hp, htr]
  · intro k e hk he
    subst hk; subst he
    simp [findEmailsForUrl]
  · intro h
    subst h
    simp [findEmailsForUrl]

/-- Witness for `findEmails_spec`: a successful call keeps exactly the
email-shaped entry, and a transport error is rethrown. -/
theorem findEmails_spec_witness :
    findEmailsForUrl (some "key") (Except.ok (some "x"))
      (fun _ => some (JsValue.jobj [("emails", JsValue.jarr [JsValue.jstr "a@b.co", JsValue.jstr "bad"])])) =
      Except.ok [JsValue.jstr "a@b.co"] ∧
    findEmailsForUrl (some "key") (Except.error { status := some 500, code := none, message := none })
      (fun _ => none) =
      Except.error { status := some 500, code := none, message := none } := by
  have H := findEmails_spec (some "key") (Except.ok (some "x"))
    (fun _ => some (JsValue.jobj [("emails", JsValue.jarr [JsValue.jstr "a@b.co", JsValue.jstr "bad"])]))
  have H2 := findEmails_spec (some "key")
    (Except.error { status := some 500, code := none, message := none }) (fun _ => none)
  refine ⟨?_, H2.2.2.2.2.1 "key" _ rfl rfl⟩
  have h3 := H.2.1 "key" (some "x") _ _ rfl rfl rfl rfl rfl
  rw [h3]
  rfl

/-! ## C5 — save-and-clear -/

theorem find?_map_keyfix (k k' : String) (v : List String) (t : History) (hk : k ≠ k') :
    List.find? (fun p => decide (p.1 = k)) (t.map (fun p => if p.1 = k' then (k', v) else p)) =
    List.find? (fun p => decide (p.1 = k)) t := by
  induction t with
  | nil => rfl
  | cons b t ih =>
    by_cases hb : b.1 = k'
    · rw [List.map_cons, if_pos hb]
      rw [List.find?_cons_of_neg, List.find?_cons_of_neg]
      · exact ih
      · simp [hb, Ne.symm hk]
      · simp [Ne.symm hk]
    · rw [List.map_cons, if_neg hb]
      by_cases hbk : b.1 = k
      · rw [List.find?_cons_of_pos, List.find?_cons_of_pos] <;> simp [hbk]
      · rw [List.find?_cons_of_neg, List.find?_cons_of_neg]
        · exact ih
        · simp [hbk]
        · simp [hbk]

theorem histInsert_cons_other (k' : String) (v : List String) (a : String × List String)
    (t : History) (ha : a.1 ≠ k') :
    histInsert k' v (a :: t) = a :: histInsert k' v t := by
  rw [histInsert, histInsert]
  have hfind : List.find? (fun p => decide (p.1 = k')) (a :: t) =
      List.find? (fun p => decide (p.1 = k')) t :=
    List.find?_cons_of_neg _ (by simp [ha])
  rw [hfind]
  by_cases hs : (List.find? (fun p => decide (p.1 = k')) t).isSome
  · rw [if_pos hs, if_pos hs, List.map_cons, if_neg ha]
  · rw [if_neg hs, if_neg hs]
    rfl

theorem histLookup_insert (k k' : String) (v : List String) (h : History) :
    histLookup k (histInsert k' v h) = if k = k' then some v else histLookup k h := by
  induction h with
  | nil =>
    by_cases hk : k = k'
    · simp [histInsert, histLookup, hk]
    · have hins : histInsert k' v [] = [(k', v)] := by simp [histInsert]
      rw [hins, histLookup, List.find?_cons_of_neg _ (by simp [Ne.symm hk]), if_neg hk]
      rfl
  | cons a t ih =>
    by_cases ha : a.1 = k'
    · have hfind : List.find? (fun p => decide (p.1 = k')) (a :: t) = some a :=
        List.find?_cons_of_pos _ (by simp [ha])
      rw [histInsert, hfind]
      simp only [Option.isSome_some, if_true]
      rw [List.map_cons, if_pos ha]
      by_cases hk : k = k'
      · subst hk
        rw [histLookup, List.find?_cons_of_pos _ (by simp), if_pos rfl]
        rfl
      · rw [histLookup, List.find?_cons_of_neg _ (by simp [Ne.symm hk]),
          find?_map_keyfix k k' v t hk, if_neg hk]
        simp only [histLookup]
        rw [List.find?_cons_of_neg _ (by simp [ha, Ne.symm hk])]
    · rw [histInsert_cons_other k' v a t ha]
      by_cases hak : a.1 = k
      · rw [histLookup, List.find?_cons_of_pos _ (by simp [hak])]
        have hkk : k ≠ k' := fun h => ha (hak.trans h)
        rw [if_neg hkk, histLookup, List.find?_cons_of_pos _ (by simp [hak])]
      · rw [histLookup, List.find?_cons_of_neg _ (by simp [hak])]
        have step : Option.map Prod.snd (List.find? (fun p => decide (p.1 = k)) (histInsert k' v t)) =
            histLookup k (histInsert k' v t) := rfl
        rw [step, ih]
        by_cases hk : k = k'
        · rw [if_pos hk, if_pos hk]
        · rw [if_neg hk, if_neg hk]
          simp only [histLookup]
          rw [List.find?_cons_of_neg _ (by simp [hak])]

theorem merge_foldl_lookup (ws : List WebsiteData) : ∀ (hist : History) (k : String),
    histLookup k (ws.foldl (fun h w =>
        if isProcessed w then histInsert (normalizeUrl w.url) w.emails h else h) hist) =
      (match (ws.filter (fun w => isProcessed w && decide (normalizeUrl w.url = k))).getLast? with
       | some w => some w.emails
       | none => histLookup k hist) := by
  induction ws with
  | nil => intro hist k; rfl
  | cons w ws ih =>
    intro hist k
    rw [List.foldl_cons, ih]
    rcases hl : (ws.filter (fun w => isProcessed w && decide (normalizeUrl w.url = k))).getLast?
      with _ | w'
    · have hnil : ws.filter (fun w => isProcessed w && decide (normalizeUrl w.url = k)) = [] :=
        List.getLast?_eq_none_iff.mp hl
      simp only [hl]
      by_cases hpred : (isProcessed w && decide (normalizeUrl w.url = k)) = true
      · simp only [List.filter_cons, hpred, if_true, hnil]
        have hp : isProcessed w = true := ((Bool.and_eq_true _ _).mp hpred).1
        have hkey : normalizeUrl w.url = k :=
          of_decide_eq_true ((Bool.and_eq_true _ _).mp hpred).2
        rw [if_pos hp, histLookup_insert, if_pos hkey.symm]
        rfl
      · have hf : (isProcessed w && decide (normalizeUrl w.url = k)) = false := by
          simpa using hpred
        simp only [List.filter_cons, hf, Bool.false_eq_true, if_false, hnil]
        by_cases hp : isProcessed w = true
        · have hkey : ¬ normalizeUrl w.url = k := by
            intro hk2
            exact hpred (by simp [hp, hk2])
          rw [if_pos hp, histLookup_insert, if_neg (fun h2 => hkey h2.symm)]
          rfl
        · rw [if_neg hp]
          rfl
    · simp only [hl]
      by_cases hpred : (isProcessed w && decide (normalizeUrl w.url = k)) = true
      · simp only [List.filter_cons, hpred, if_true]
        rw [List.getLast?_cons, hl]
        rfl
      · have hf : (isProcessed w && decide (normalizeUrl w.url = k)) = false := by
          simpa using hpred
        simp only [List.filter_cons, hf, Bool.false_eq_true, if_false, hl]

theorem nodup_single_eq {α : Type _} (l : List α) (w : α) (hn : l.Nodup)
    (hall : ∀ x ∈ l, x = w) (hw : w ∈ l) : l = [w] := by
  cases l with
  | nil => cases hw
  | cons a t =>
    have ha : a = w := hall a (List.mem_cons_self a t)
    subst ha
    cases t with
    | nil => rfl
    | cons b t2 =>
      have hb : b = a := hall b (by simp)
      exact absurd (List.mem_cons.mpr (Or.inl hb.symm)) (List.nodup_cons.mp hn).1

/-- C5: save-and-clear empties the active list and merges exactly the
COMPLETED/FAILED records into the history, mapping each one's normalized
url to its email list, while records in other statuses contribute
nothing (keys not covered by a processed record keep their old lookup);
on the concrete example — `a.com` COMPLETED with `["a@a.com"]`, `b.com`
FAILED, empty history — the history afterwards maps `a.com` to
`["a@a.com"]` and `b.com` to `[]` and the active list is empty. -/
theorem saveAndClear_spec (st : AppState)
    (hnodup : (st.websites.map (fun w => normalizeUrl w.url)).Nodup) :
    (saveAndClear st).websites = [] ∧
    (∀ w ∈ st.websites, isProcessed w = true →
      histLookup (normalizeUrl w.url) (saveAndClear st).history = some w.emails) ∧
    (∀ k : String, (∀ w ∈ st.websites, isProcessed w = true → normalizeUrl w.url ≠ k) →
      histLookup k (saveAndClear st).history = histLookup k st.history) ∧
    (saveAndClear c5State).websites = [] ∧
    histLookup "a.com" (saveAndClear c5State).history = some ["a@a.com"] ∧
    histLookup "b.com" (saveAndClear c5State).history = some [] := by
  refine ⟨?_, ?_, ?_, by decide, by decide, by decide⟩
  · rw [saveAndClear]
    by_cases h : st.websites = []
    · rw [if_pos h]; exact h
    · rw [if_neg h]
  · intro w hw hp
    rw [saveAndClear]
    by_cases h : st.websites = []
    · rw [h] at hw; cases hw
    · rw [if_neg h]
      show histLookup (normalizeUrl w.url) (st.websites.foldl (fun h w =>
        if isProcessed w then histInsert (normalizeUrl w.url) w.emails h else h) st.history) =
        some w.emails
      rw [merge_foldl_lookup]
      have hfil : st.websites.filter
          (fun w2 => isProcessed w2 && decide (normalizeUrl w2.url = normalizeUrl w.url)) = [w] := by
        apply nodup_single_eq _ w (List.Nodup.sublist (List.filter_sublist _) (hnodup.of_map _))
        · intro x hx
          have hx2 := List.mem_filter.mp hx
          have hkey : normalizeUrl x.url = normalizeUrl w.url :=
            of_decide_eq_true ((Bool.and_eq_true _ _).mp hx2.2).2
          exact List.inj_on_of_nodup_map hnodup hx2.1 hw hkey
        · exact List.mem_filter.mpr ⟨hw, by simp [hp]⟩
      rw [hfil]
      rfl
  · intro k hk
    rw [saveAndClear]
    by_cases h : st.websites = []
    · rw [if_pos h]
    · rw [if_neg h]
      show histLookup k (st.websites.foldl (fun h w =>
        if isProcessed w then histInsert (normalizeUrl w.url) w.emails h else h) st.history) =
        histLookup k st.history
      rw [merge_foldl_lookup]
      have hfil : st.websites.filter (fun w => isProcessed w && decide (normalizeUrl w.url = k)) = [] := by
        rw [List.filter_eq_nil_iff]
        intro w hw hc
        have hc2 := (Bool.and_eq_true _ _).mp hc
        exact hk w hw hc2.1 (of_decide_eq_true hc2.2)
      rw [hfil]
      rfl

/-- Witness for `saveAndClear_spec` at the two-record example. -/
theorem saveAndClear_spec_witness :
    (saveAndClear c5State).websites = [] ∧
    histLookup "a.com" (saveAndClear c5State).history = some ["a@a.com"] ∧
    histLookup "b.com" (saveAndClear c5State).history = some [] := by
  have H := saveAndClear_spec c5State (by decide)
  exact ⟨H.2.2.2.1, H.2.2.2.2.1, H.2.2.2.2.2⟩

/-! ## C3 — addUrls dedup -/

theorem addLoop_facts (hist₀ : History) (urls : List String) : ∀ (seen : List String) (nid : Nat),
    ((((addLoop hist₀ urls seen nid).entries).map (fun e => normalizeUrl e.url)).Nodup) ∧
    (∀ e ∈ (addLoop hist₀ urls seen nid).entries,
      seen.contains (normalizeUrl e.url) = false ∧
      (histLookup (normalizeUrl e.url) hist₀).isSome = false ∧
      e.status = ExtractionStatus.IDLE ∧ e.emails = [] ∧
      nid ≤ e.id ∧ e.id < (addLoop hist₀ urls seen nid).nextId) ∧
    (((addLoop hist₀ urls seen nid).entries.map WebsiteData.id).Nodup) ∧
    (nid ≤ (addLoop hist₀ urls seen nid).nextId) ∧
    ((addLoop hist₀ urls seen nid).entries.length + (addLoop hist₀ urls seen nid).dup +
      (addLoop hist₀ urls seen nid).hist = urls.length) := by
  induction urls with
  | nil =>
    intro seen nid
    refine ⟨List.nodup_nil, ?_, List.nodup_nil, Nat.le_refl _, rfl⟩
    intro e he
    simp [addLoop] at he
  | cons u rest ih =>
    intro seen nid
    by_cases hc1 : seen.contains (normalizeUrl u) = true
    · have hstep : addLoop hist₀ (u :: rest) seen nid =
        { addLoop hist₀ rest seen nid with dup := (addLoop hist₀ rest seen nid).dup + 1 } := by
        simp only [addLoop]
        rw [if_pos hc1]
      rw [hstep]
      obtain ⟨h1, h2, h3, h4, h5⟩ := ih seen nid
      refine ⟨h1, ?_, h3, h4, ?_⟩
      · intro e he
        exact h2 e he
      · show (addLoop hist₀ rest seen nid).entries.length +
          ((addLoop hist₀ rest seen nid).dup + 1) + (addLoop hist₀ rest seen nid).hist =
          rest.length + 1
        omega
    · by_cases hc2 : (histLookup (normalizeUrl u) hist₀).isSome = true
      · have hstep : addLoop hist₀ (u :: rest) seen nid =
          { addLoop hist₀ rest seen nid with hist := (addLoop hist₀ rest seen nid).hist + 1 } := by
          simp only [addLoop]
          rw [if_neg hc1, if_pos hc2]
        rw [hstep]
        obtain ⟨h1, h2, h3, h4, h5⟩ := ih seen nid
        refine ⟨h1, ?_, h3, h4, ?_⟩
        · intro e he
          exact h2 e he
        · show (addLoop hist₀ rest seen nid).entries.length +
            (addLoop hist₀ rest seen nid).dup + ((addLoop hist₀ rest seen nid).hist + 1) =
            rest.length + 1
          omega
      · have hstep : addLoop hist₀ (u :: rest) seen nid =
          { addLoop hist₀ rest (normalizeUrl u :: seen) (nid + 1) with entries :=
            { id := nid, url := u, status := ExtractionStatus.IDLE,
              emails := [], error := none, sourceUrl := none } ::
            (addLoop hist₀ rest (normalizeUrl u :: seen) (nid + 1)).entries } := by
          simp only [addLoop]
          rw [if_neg hc1, if_neg hc2]
        rw [hstep]
        obtain ⟨h1, h2, h3, h4, h5⟩ := ih (normalizeUrl u :: seen) (nid + 1)
        have hne : ∀ e ∈ (addLoop hist₀ rest (normalizeUrl u :: seen) (nid + 1)).entries,
            normalizeUrl e.url ≠ normalizeUrl u ∧ seen.contains (normalizeUrl e.url) = false := by
          intro e he
          have hco := (h2 e he).1
          simp only [List.contains_cons, Bool.or_eq_false_iff] at hco
          refine ⟨?_, hco.2⟩
          intro heq
          rw [heq] at hco
          simp at hco
        refine ⟨?_, ?_, ?_, ?_, ?_⟩
        · rw [List.map_cons, List.nodup_cons]
          refine ⟨?_, h1⟩
          intro hmem
          rw [List.mem_map] at hmem
          obtain ⟨e, he, heq⟩ := hmem
          exact (hne e he).1 heq
        · intro e he
          rcases List.mem_cons.mp he with h | h
          · subst h
            refine ⟨by simpa using hc1, by simpa using hc2, rfl, rfl, Nat.le_refl _, ?_⟩
            show nid < (addLoop hist₀ rest (normalizeUrl u :: seen) (nid + 1)).nextId
            omega
          · obtain ⟨e1, e2, e3, e4, e5, e6⟩ := h2 e h
            exact ⟨(hne e h).2, e2, e3, e4, by omega, e6⟩
        · rw [List.map_cons, List.nodup_cons]
          refine ⟨?_, h3⟩
          intro hmem
          rw [List.mem_map] at hmem
          obtain ⟨e, he, heq⟩ := hmem
          have heq2 : e.id = nid := heq
          have := (h2 e he).2.2.2.2.1
          omega
        · show nid ≤ (addLoop hist₀ rest (normalizeUrl u :: seen) (nid + 1)).nextId
          omega
        · show ((addLoop hist₀ rest (normalizeUrl u :: seen) (nid + 1)).entries.length + 1) +
            (addLoop hist₀ rest (normalizeUrl u :: seen) (nid + 1)).dup +
            (addLoop hist₀ rest (normalizeUrl u :: seen) (nid + 1)).hist = rest.length + 1
          omega

theorem contains_false_not_mem {a : String} {l : List String} (h : l.contains a = false) :
    a ∉ l := by
  induction l with
  | nil => simp
  | cons b t ih =>
    simp only [List.contains_cons, Bool.or_eq_false_iff] at h
    intro hm
    rcases List.mem_cons.mp hm with h1 | h1
    · subst h1
      simp at h
    · exact ih h.2 h1

/-- C3: adding a batch of urls creates no record for a url whose
normalized form is already in the active list or among the history keys
(the count of active records with that normalized form is unchanged),
the appropriate skip counter is incremented for such a url (the
duplicate-in-list check runs first, then the history check), every url
is accounted for by exactly one of new-record / duplicate-skip /
history-skip, the active list keeps pairwise-distinct normalized urls,
and `addUrls` leaves the history map itself untouched (so its
at-most-one-entry-per-normalized-url shape is preserved). -/
theorem addUrls_dedup_spec (st : AppState) (urls : List String)
    (hnodup : (st.websites.map (fun w => normalizeUrl w.url)).Nodup) :
    (((addUrls urls st).websites).map (fun w => normalizeUrl w.url)).Nodup ∧
    (addUrls urls st).history = st.history ∧
    (∀ u ∈ urls, (normalizeUrl u ∈ st.websites.map (fun w => normalizeUrl w.url) ∨
        (histLookup (normalizeUrl u) st.history).isSome = true) →
      ((addUrls urls st).websites.filter
          (fun w => decide (normalizeUrl w.url = normalizeUrl u))).length =
        (st.websites.filter (fun w => decide (normalizeUrl w.url = normalizeUrl u))).length) ∧
    ((addLoop st.history urls (st.websites.map (fun w => normalizeUrl w.url)) st.nextId).entries.length +
      (addLoop st.history urls (st.websites.map (fun w => normalizeUrl w.url)) st.nextId).dup +
      (addLoop st.history urls (st.websites.map (fun w => normalizeUrl w.url)) st.nextId).hist =
      urls.length) ∧
    (∀ u : String, (st.websites.map (fun w => normalizeUrl w.url)).contains (normalizeUrl u) = true →
      addLoop st.history [u] (st.websites.map (fun w => normalizeUrl w.url)) st.nextId =
        { entries := [], dup := 1, hist := 0, nextId := st.nextId }) ∧
    (∀ u : String, (st.websites.map (fun w => normalizeUrl w.url)).contains (normalizeUrl u) = false →
      (histLookup (normalizeUrl u) st.history).isSome = true →
      addLoop st.history [u] (st.websites.map (fun w => normalizeUrl w.url)) st.nextId =
        { entries := [], dup := 0, hist := 1, nextId := st.nextId }) := by
  obtain ⟨f1, f2, f3, f4, f5⟩ :=
    addLoop_facts st.history urls (st.websites.map (fun w => normalizeUrl w.url)) st.nextId
  refine ⟨?_, rfl, ?_, f5, ?_, ?_⟩
  · show ((st.websites ++ (addLoop st.history urls
      (st.websites.map (fun w => normalizeUrl w.url)) st.nextId).entries).map
        (fun w => normalizeUrl w.url)).Nodup
    rw [List.map_append, List.nodup_append]
    refine ⟨hnodup, f1, ?_⟩
    intro a ha hb
    rw [List.mem_map] at hb
    obtain ⟨e, he, heq⟩ := hb
    have hcont := (f2 e he).1
    rw [heq] at hcont
    exact contains_false_not_mem hcont ha
  · intro u hu hmem
    show ((st.websites ++ (addLoop st.history urls
      (st.websites.map (fun w => normalizeUrl w.url)) st.nextId).entries).filter
        (fun w => decide (normalizeUrl w.url = normalizeUrl u))).length = _
    rw [List.filter_append, List.length_append]
    have hnil : ((addLoop st.history urls
        (st.websites.map (fun w => normalizeUrl w.url)) st.nextId).entries.filter
          (fun w => decide (normalizeUrl w.url = normalizeUrl u))) = [] := by
      rw [List.filter_eq_nil_iff]
      intro e he hc
      have heq : normalizeUrl e.url = normalizeUrl u := of_decide_eq_true hc
      rcases hmem with hm | hm
      · have hcont := (f2 e he).1
        rw [heq] at hcont
        exact contains_false_not_mem hcont hm
      · have hhist := (f2 e he).2.1
        rw [heq, hm] at hhist
        cases hhist
    rw [hnil]
    rfl
  · intro u h
    simp only [addLoop]
    rw [if_pos h]
  · intro u h1 h2
    simp only [addLoop]
    rw [if_neg ((Bool.not_eq_true _).mpr h1), if_pos h2]

/-- Witness for `addUrls_dedup_spec`: with `a.com` active and `b.com` in
history, adding `["a.com", "b.com", "c.com"]` keeps the normalized urls
distinct, creates no second `a.com` record, and a lone `b.com` increments
the history-skip counter. -/
theorem addUrls_dedup_spec_witness :
    (((addUrls ["a.com", "b.com", "c.com"] c3State).websites).map
      (fun w => normalizeUrl w.url)).Nodup ∧
    ((addUrls ["a.com", "b.com", "c.com"] c3State).websites.filter
        (fun w => decide (normalizeUrl w.url = normalizeUrl "a.com"))).length =
      (c3State.websites.filter (fun w => decide (normalizeUrl w.url = normalizeUrl "a.com"))).length ∧
    addLoop c3State.history ["b.com"] (c3State.websites.map (fun w => normalizeUrl w.url)) c3State.nextId =
      { entries := [], dup := 0, hist := 1, nextId := c3State.nextId } := by
  have H := addUrls_dedup_spec c3State ["a.com", "b.com", "c.com"] (by decide)
  have H2 := addUrls_dedup_spec c3State ["b.com"] (by decide)
  exact ⟨H.1, H.2.2.1 "a.com" (by decide) (Or.inl (by decide)),
    H2.2.2.2.2.2 "b.com" (by decide) (by decide)⟩

/-! ## Queue controller helper lemmas -/

theorem contains_eq_false_of_not_mem {α : Type _} [BEq α] [LawfulBEq α] {a : α} {l : List α}
    (h : a ∉ l) : l.contains a = false := by
  cases hc : l.contains a
  · rfl
  · exact absurd (List.elem_iff.mp hc) h

theorem updateById_map_id (i : Nat) (g : WebsiteData → WebsiteData)
    (hg : ∀ w, (g w).id = w.id) (ws : List WebsiteData) :
    (updateById i g ws).map WebsiteData.id = ws.map WebsiteData.id := by
  rw [updateById, List.map_map]
  apply List.map_congr_left
  intro w _
  show (if w.id = i then g w else w).id = w.id
  by_cases h : w.id = i
  · rw [if_pos h, hg]
  · rw [if_neg h]

theorem mem_updateById_of_ne (i : Nat) (g : WebsiteData → WebsiteData) (w : WebsiteData)
    (ws : List WebsiteData) (hw : w ∈ ws) (hne : w.id ≠ i) :
    w ∈ updateById i g ws := by
  have h2 := List.mem_map_of_mem (fun w2 => if w2.id = i then g w2 else w2) hw
  have h3 : (if w.id = i then g w else w) ∈
      ws.map (fun w2 => if w2.id = i then g w2 else w2) := h2
  rw [if_neg hne] at h3
  exact h3

theorem updateById_updateById (i : Nat) (g1 g2 : WebsiteData → WebsiteData)
    (hg1 : ∀ w, (g1 w).id = w.id) (ws : List WebsiteData) :
    updateById i g2 (updateById i g1 ws) = updateById i (fun w => g2 (g1 w)) ws := by
  rw [updateById, updateById, updateById, List.map_map]
  apply List.map_congr_left
  intro w _
  show (fun w2 => if w2.id = i then g2 w2 else w2) (if w.id = i then g1 w else w) =
    if w.id = i then g2 (g1 w) else w
  by_cases h : w.id = i
  · rw [if_pos h]
    show (if (g1 w).id = i then g2 (g1 w) else g1 w) = _
    rw [hg1, if_pos h, if_pos h]
  · rw [if_neg h]
    show (if w.id = i then g2 w else w) = _
    rw [if_neg h, if_neg h]

theorem map_upd_collapse (f : String → FinderOutcome) (item : WebsiteData)
    (rest : List WebsiteData) (ws : List WebsiteData) (gNet : WebsiteData → WebsiteData)
    (h1 : (ws.map WebsiteData.id).Nodup) (hmem : item ∈ ws)
    (hid : ∀ w, (gNet w).id = w.id)
    (hna : item.id ∉ rest.map WebsiteData.id)
    (happ : gNet item = applyOutcome f item) :
    (updateById item.id gNet ws).map (updSnapshot f rest) =
      ws.map (updSnapshot f (item :: rest)) := by
  rw [updateById, List.map_map]
  apply List.map_congr_left
  intro w hw
  show updSnapshot f rest (if w.id = item.id then gNet w else w) =
    updSnapshot f (item :: rest) w
  by_cases h : w.id = item.id
  · rw [if_pos h]
    have hw_item : w = item := List.inj_on_of_nodup_map h1 hw hmem h
    subst hw_item
    rw [updSnapshot, updSnapshot, hid w, contains_eq_false_of_not_mem hna,
      List.map_cons, List.contains_cons]
    simp only [beq_self_eq_true, Bool.true_or, if_true, Bool.false_eq_true, if_false]
    exact happ
  · rw [if_neg h]
    rw [updSnapshot, updSnapshot, List.map_cons, List.contains_cons]
    have hb : (w.id == item.id) = false := by simp [h]
    rw [hb, Bool.false_or]

theorem runQueue_no_rate_limit (f : String → FinderOutcome) (pending : List WebsiteData) :
    ∀ (st d : AppState),
    (st.websites.map WebsiteData.id).Nodup →
    ((pending.map WebsiteData.id).Nodup) →
    (∀ it ∈ pending, it ∈ st.websites ∧ it.status = ExtractionStatus.IDLE) →
    (∀ it ∈ pending, isRateLimited (f it.url) = false) →
    (runQueue f pending st).1.getLastD d =
      { st with websites := st.websites.map (updSnapshot f pending), isProcessing := false } ∧
    (runQueue f pending st).2 = pending.map WebsiteData.url := by
  induction pending with
  | nil =>
    intro st d h1 h2 h3 h4
    constructor
    · show ({ st with isProcessing := false } :: []).getLastD d = _
      rw [List.getLastD_cons, List.getLastD_nil]
      have h0 : st.websites.map (updSnapshot f []) = st.websites := by
        show st.websites.map (fun w => updSnapshot f [] w) = st.websites
        simp [updSnapshot]
      rw [h0]
    · rfl
  | cons item rest ih =>
    intro st d h1 h2 h3 h4
    obtain ⟨hmem, hidle⟩ := h3 item (List.mem_cons_self item rest)
    have hnr := h4 item (List.mem_cons_self item rest)
    have hna : item.id ∉ rest.map WebsiteData.id := (List.nodup_cons.mp h2).1
    have h2r : (rest.map WebsiteData.id).Nodup := (List.nodup_cons.mp h2).2
    rcases hf : f item.url with es | e
    · set W : List WebsiteData := updateById item.id
          (fun w => { w with status := ExtractionStatus.COMPLETED, emails := es })
          st.websites with hW
      have hcoll : updateById item.id
          (fun w => { w with status := ExtractionStatus.COMPLETED, emails := es })
          (updateById item.id (fun w => { w with status := ExtractionStatus.PROCESSING })
            st.websites) = W := by
        rw [updateById_updateById item.id
          (fun w => { w with status := ExtractionStatus.PROCESSING })
          (fun w => { w with status := ExtractionStatus.COMPLETED, emails := es })
          (fun w => rfl) st.websites, hW]
      have hA : (W.map WebsiteData.id).Nodup := by
        rw [hW, updateById_map_id item.id
          (fun w => { w with status := ExtractionStatus.COMPLETED, emails := es })
          (fun w => rfl) st.websites]
        exact h1
      have hC : ∀ it ∈ rest, it ∈ W ∧ it.status = ExtractionStatus.IDLE := by
        intro it hit
        obtain ⟨hit1, hit2⟩ := h3 it (List.mem_cons_of_mem item hit)
        rw [hW]
        refine ⟨mem_updateById_of_ne item.id
          (fun w => { w with status := ExtractionStatus.COMPLETED, emails := es })
          it st.websites hit1 ?_, hit2⟩
        intro hid2
        exact hna (hid2 ▸ List.mem_map_of_mem WebsiteData.id hit)
      have hD : ∀ it ∈ rest, isRateLimited (f it.url) = false :=
        fun it hit => h4 it (List.mem_cons_of_mem item hit)
      have IH := ih { st with websites := W } { st with websites := W } hA h2r hC hD
      constructor
      · simp only [runQueue, hf]
        rw [List.getLastD_cons, List.getLastD_cons, hcoll]
        rw [IH.1]
        congr 1
        rw [hW]
        exact map_upd_collapse f item rest st.websites
          (fun w => { w with status := ExtractionStatus.COMPLETED, emails := es })
          h1 hmem (fun w => rfl) hna (by rw [applyOutcome, hf])
      · simp only [runQueue, hf]
        rw [List.map_cons, hcoll, IH.2]
    · have hrl : isRateLimit e = false := by
        rw [hf] at hnr
        exact hnr
      set W : List WebsiteData := updateById item.id
          (fun w => { w with status := ExtractionStatus.FAILED, error := some (errorText e) })
          st.websites with hW
      have hcoll : updateById item.id
          (fun w => { w with status := ExtractionStatus.FAILED, error := some (errorText e) })
          (updateById item.id (fun w => { w with status := ExtractionStatus.PROCESSING })
            st.websites) = W := by
        rw [updateById_updateById item.id
          (fun w => { w with status := ExtractionStatus.PROCESSING })
          (fun w => { w with status := ExtractionStatus.FAILED, error := some (errorText e) })
          (fun w => rfl) st.websites, hW]
      have hA : (W.map WebsiteData.id).Nodup := by
        rw [hW, updateById_map_id item.id
          (fun w => { w with status := ExtractionStatus.FAILED, error := some (errorText e) })
          (fun w => rfl) st.websites]
        exact h1
      have hC : ∀ it ∈ rest, it ∈ W ∧ it.status = ExtractionStatus.IDLE := by
        intro it hit
        obtain ⟨hit1, hit2⟩ := h3 it (List.mem_cons_of_mem item hit)
        rw [hW]
        refine ⟨mem_updateById_of_ne item.id
          (fun w => { w with status := ExtractionStatus.FAILED, error := some (errorText e) })
          it st.websites hit1 ?_, hit2⟩
        intro hid2
        exact hna (hid2 ▸ List.mem_map_of_mem WebsiteData.id hit)
      have hD : ∀ it ∈ rest, isRateLimited (f it.url) = false :=
        fun it hit => h4 it (List.mem_cons_of_mem item hit)
      have IH := ih { st with websites := W } { st with websites := W } hA h2r hC hD
      constructor
      · simp only [runQueue, hf]
        rw [if_neg (by simp [hrl])]
        rw [List.getLastD_cons, List.getLastD_cons, hcoll]
        rw [IH.1]
        congr 1
        rw [hW]
        exact map_upd_collapse f item rest st.websites
          (fun w => { w with status := ExtractionStatus.FAILED, error := some (errorText e) })
          h1 hmem (fun w => rfl) hna (by rw [applyOutcome, hf])
      · simp only [runQueue, hf]
        rw [if_neg (by simp [hrl])]
        rw [List.map_cons, hcoll, IH.2]

/-! ## C2 — all-success run -/

/-- C2: from a not-running state, with a finder that succeeds on every
call, running the controller turns every IDLE record COMPLETED storing
the returned email list (possibly empty), leaves all other records
untouched, and ends with the running flag false. -/
theorem processQueue_all_success (st : AppState) (f : String → FinderOutcome)
    (hrun : st.isProcessing = false)
    (hids : (st.websites.map WebsiteData.id).Nodup)
    (hok : ∀ u : String, ∃ es, f u = FinderOutcome.ok es) :
    processQueue f st =
      { st with
        websites := st.websites.map (fun w =>
          if w.status = ExtractionStatus.IDLE then
            { w with status := ExtractionStatus.COMPLETED, emails := okEmails (f w.url) }
          else w),
        isProcessing := false,
        notification := none } := by
  rw [processQueue, if_neg (by simp [hrun])]
  show ((runQueue f (pendingOf { st with isProcessing := true, notification := none })
      { st with isProcessing := true, notification := none }).1).getLastD
      { st with isProcessing := true, notification := none } = _
  have hpend : ∀ it ∈ pendingOf { st with isProcessing := true, notification := none },
      it ∈ st.websites ∧ it.status = ExtractionStatus.IDLE := by
    intro it hit
    have h2 := List.mem_filter.mp hit
    exact ⟨h2.1, of_decide_eq_true h2.2⟩
  have hpn : ((pendingOf { st with isProcessing := true, notification := none }).map
      WebsiteData.id).Nodup :=
    List.Nodup.sublist (List.Sublist.map WebsiteData.id (List.filter_sublist _)) hids
  have hnr : ∀ it ∈ pendingOf { st with isProcessing := true, notification := none },
      isRateLimited (f it.url) = false := by
    intro it _
    obtain ⟨es, hes⟩ := hok it.url
    rw [hes]
    rfl
  have HR := runQueue_no_rate_limit f
    (pendingOf { st with isProcessing := true, notification := none })
    { st with isProcessing := true, notification := none }
    { st with isProcessing := true, notification := none }
    hids hpn hpend hnr
  rw [HR.1]
  show ({ st with
      websites := st.websites.map (updSnapshot f
        (pendingOf { st with isProcessing := true, notification := none })),
      isProcessing := false, notification := none } : AppState) = _
  have hmap : st.websites.map (updSnapshot f
      (pendingOf { st with isProcessing := true, notification := none })) =
      st.websites.map (fun w =>
        if w.status = ExtractionStatus.IDLE then
          { w with status := ExtractionStatus.COMPLETED, emails := okEmails (f w.url) }
        else w) := by
    apply List.map_congr_left
    intro w hw
    rw [updSnapshot]
    by_cases hs : w.status = ExtractionStatus.IDLE
    · rw [if_pos hs]
      have hcont : ((pendingOf { st with isProcessing := true, notification := none }).map
          WebsiteData.id).contains w.id = true :=
        List.elem_iff.mpr (List.mem_map_of_mem WebsiteData.id
          (List.mem_filter.mpr ⟨hw, by simp [hs]⟩))
      rw [hcont, if_pos rfl]
      obtain ⟨es, hes⟩ := hok w.url
      rw [applyOutcome, hes]
      rfl
    · rw [if_neg hs]
      have hcont : ((pendingOf { st with isProcessing := true, notification := none }).map
          WebsiteData.id).contains w.id = false := by
        apply contains_eq_false_of_not_mem
        intro hmem2
        rw [List.mem_map] at hmem2
        obtain ⟨it, hit, hideq⟩ := hmem2
        have h3 := List.mem_filter.mp hit
        have hiw : it = w := List.inj_on_of_nodup_map hids h3.1 hw hideq
        rw [hiw] at h3
        exact hs (of_decide_eq_true h3.2)
      rw [hcont, if_neg (by simp)]
  rw [hmap]

/-- Witness for `processQueue_all_success`: an always-succeeding finder
completes both IDLE records of `c1State`. -/
theorem processQueue_all_success_witness :
    processQueue (fun _ => FinderOutcome.ok ["x@y.co"]) c1State =
      { c1State with
        websites := c1State.websites.map (fun w =>
          if w.status = ExtractionStatus.IDLE then
            { w with status := ExtractionStatus.COMPLETED,
                     emails := okEmails ((fun _ => FinderOutcome.ok ["x@y.co"]) w.url) }
          else w),
        isProcessing := false,
        notification := none } :=
  processQueue_all_success c1State (fun _ => FinderOutcome.ok ["x@y.co"]) rfl
    (by decide) (fun u => ⟨["x@y.co"], rfl⟩)

/-! ## C1 — rate-limit stop -/

theorem updateById_self (i : Nat) (g : WebsiteData → WebsiteData) (ws : List WebsiteData)
    (h : ∀ w ∈ ws, w.id = i → g w = w) : updateById i g ws = ws := by
  rw [updateById]
  conv_rhs => rw [← List.map_id' ws]
  apply List.map_congr_left
  intro w hw
  by_cases hh : w.id = i
  · rw [if_pos hh]
    exact h w hw hh
  · rw [if_neg hh]

theorem runQueue_rate_limit_at (f : String → FinderOutcome) :
    ∀ (k : Nat) (pending : List WebsiteData) (st d : AppState),
    (st.websites.map WebsiteData.id).Nodup →
    ((pending.map WebsiteData.id).Nodup) →
    (∀ it ∈ pending, it ∈ st.websites ∧ it.status = ExtractionStatus.IDLE) →
    ∀ (hk : k < pending.length),
    isRateLimited (f (pending.get ⟨k, hk⟩).url) = true →
    (∀ j (hj : j < k), isRateLimited (f (pending.get ⟨j, Nat.lt_trans hj hk⟩).url) = false) →
    (runQueue f pending st).1.getLastD d =
      { st with websites := st.websites.map (updSnapshot f (pending.take k)),
                isProcessing := false, notification := some rateLimitNotice } ∧
    (runQueue f pending st).2 = (pending.take (k + 1)).map WebsiteData.url := by
  intro k
  induction k with
  | zero =>
    intro pending st d h1 h2 h3 hk hlim hbefore
    cases pending with
    | nil => exact absurd hk (by simp)
    | cons item rest =>
      obtain ⟨hmem, hidle⟩ := h3 item (List.mem_cons_self item rest)
      rcases hfe : f item.url with es | e
      · rw [show (item :: rest).get ⟨0, hk⟩ = item from rfl, hfe] at hlim
        have hfalse : (false : Bool) = true := hlim
        simp at hfalse
      · rw [show (item :: rest).get ⟨0, hk⟩ = item from rfl, hfe] at hlim
        have hlim2 : isRateLimit e = true := hlim
        have hwnet : updateById item.id (fun w => { w with status := ExtractionStatus.IDLE })
            (updateById item.id (fun w => { w with status := ExtractionStatus.PROCESSING })
              st.websites) = st.websites := by
          rw [updateById_updateById item.id
            (fun w => { w with status := ExtractionStatus.PROCESSING })
            (fun w => { w with status := ExtractionStatus.IDLE })
            (fun w => rfl) st.websites]
          apply updateById_self
          intro w hw hwid
          have hwitem : w = item := List.inj_on_of_nodup_map h1 hw hmem hwid
          show ({ w with status := ExtractionStatus.IDLE } : WebsiteData) = w
          rw [hwitem, ← hidle]
        have h0 : st.websites.map (updSnapshot f ((item :: rest).take 0)) = st.websites := by
          show st.websites.map (fun w => updSnapshot f [] w) = st.websites
          simp [updSnapshot]
        constructor
        · simp only [runQueue, hfe]
          rw [if_pos hlim2]
          rw [List.getLastD_cons, List.getLastD_cons, List.getLastD_cons, List.getLastD_nil]
          rw [hwnet, h0]
        · simp only [runQueue, hfe]
          rw [if_pos hlim2]
          rfl
  | succ k ih =>
    intro pending st d h1 h2 h3 hk hlim hbefore
    cases pending with
    | nil => exact absurd hk (by simp)
    | cons item rest =>
      obtain ⟨hmem, hidle⟩ := h3 item (List.mem_cons_self item rest)
      have hna : item.id ∉ rest.map WebsiteData.id := (List.nodup_cons.mp h2).1
      have h2r : (rest.map WebsiteData.id).Nodup := (List.nodup_cons.mp h2).2
      have hk' : k < rest.length := Nat.succ_lt_succ_iff.mp hk
      have hlim' : isRateLimited (f (rest.get ⟨k, hk'⟩).url) = true := hlim
      have hbefore' : ∀ j (hj : j < k),
          isRateLimited (f (rest.get ⟨j, Nat.lt_trans hj hk'⟩).url) = false :=
        fun j hj => hbefore (j + 1) (Nat.succ_lt_succ hj)
      have hitem_nr : isRateLimited (f item.url) = false := hbefore 0 (Nat.succ_pos k)
      have hna_take : item.id ∉ (rest.take k).map WebsiteData.id := by
        intro hmemt
        rw [List.map_take] at hmemt
        exact hna (List.Sublist.mem hmemt (List.take_sublist k (rest.map WebsiteData.id)))
      have htake : (item :: rest).take (k + 1) = item :: rest.take k := List.take_succ_cons
      have htake2 : (item :: rest).take (k + 1 + 1) = item :: rest.take (k + 1) :=
        List.take_succ_cons
      rcases hfe : f item.url with es | e
      · set W : List WebsiteData := updateById item.id
            (fun w => { w with status := ExtractionStatus.COMPLETED, emails := es })
            st.websites with hW
        have hcoll : updateById item.id
            (fun w => { w with status := ExtractionStatus.COMPLETED, emails := es })
            (updateById item.id (fun w => { w with status := ExtractionStatus.PROCESSING })
              st.websites) = W := by
          rw [updateById_updateById item.id
            (fun w => { w with status := ExtractionStatus.PROCESSING })
            (fun w => { w with status := ExtractionStatus.COMPLETED, emails := es })
            (fun w => rfl) st.websites, hW]
        have hA : (W.map WebsiteData.id).Nodup := by
          rw [hW, updateById_map_id item.id
            (fun w => { w with status := ExtractionStatus.COMPLETED, emails := es })
            (fun w => rfl) st.websites]
          exact h1
        have hC : ∀ it ∈ rest, it ∈ W ∧ it.status = ExtractionStatus.IDLE := by
          intro it hit
          obtain ⟨hit1, hit2⟩ := h3 it (List.mem_cons_of_mem item hit)
          rw [hW]
          refine ⟨mem_updateById_of_ne item.id
            (fun w => { w with status := ExtractionStatus.COMPLETED, emails := es })
            it st.websites hit1 ?_, hit2⟩
          intro hid2
          exact hna (hid2 ▸ List.mem_map_of_mem WebsiteData.id hit)
        have IH := ih rest { st with websites := W } { st with websites := W }
          hA h2r hC hk' hlim' hbefore'
        constructor
        · simp only [runQueue, hfe]
          rw [List.getLastD_cons, List.getLastD_cons, hcoll]
          rw [IH.1]
          rw [htake]
          congr 1
          rw [hW]
          exact map_upd_collapse f item (rest.take k) st.websites
            (fun w => { w with status := ExtractionStatus.COMPLETED, emails := es })
            h1 hmem (fun w => rfl) hna_take (by rw [applyOutcome, hfe])
        · simp only [runQueue, hfe]
          rw [hcoll, IH.2, htake2, List.map_cons]
      · have hrl : isRateLimit e = false := by
          rw [hfe] at hitem_nr
          exact hitem_nr
        set W : List WebsiteData := updateById item.id
            (fun w => { w with status := ExtractionStatus.FAILED, error := some (errorText e) })
            st.websites with hW
        have hcoll : updateById item.id
            (fun w => { w with status := ExtractionStatus.FAILED, error := some (errorText e) })
            (updateById item.id (fun w => { w with status := ExtractionStatus.PROCESSING })
              st.websites) = W := by
          rw [updateById_updateById item.id
            (fun w => { w with status := ExtractionStatus.PROCESSING })
            (fun w => { w with status := ExtractionStatus.FAILED, error := some (errorText e) })
            (fun w => rfl) st.websites, hW]
        have hA : (W.map WebsiteData.id).Nodup := by
          rw [hW, updateById_map_id item.id
            (fun w => { w with status := ExtractionStatus.FAILED, error := some (errorText e) })
            (fun w => rfl) st.websites]
          exact h1
        have hC : ∀ it ∈ rest, it ∈ W ∧ it.status = ExtractionStatus.IDLE := by
          intro it hit
          obtain ⟨hit1, hit2⟩ := h3 it (List.mem_cons_of_mem item hit)
          rw [hW]
          refine ⟨mem_updateById_of_ne item.id
            (fun w => { w with status := ExtractionStatus.FAILED, error := some (errorText e) })
            it st.websites hit1 ?_, hit2⟩
          intro hid2
          exact hna (hid2 ▸ List.mem_map_of_mem WebsiteData.id hit)
        have IH := ih rest { st with websites := W } { st with websites := W }
          hA h2r hC hk' hlim' hbefore'
        constructor
        · simp only [runQueue, hfe]
          rw [if_neg (by simp [hrl])]
          rw [List.getLastD_cons, List.getLastD_cons, hcoll]
          rw [IH.1]
          rw [htake]
          congr 1
          rw [hW]
          exact map_upd_collapse f item (rest.take k) st.websites
            (fun w => { w with status := ExtractionStatus.FAILED, error := some (errorText e) })
            h1 hmem (fun w => rfl) hna_take (by rw [applyOutcome, hfe])
        · simp only [runQueue, hfe]
          rw [if_neg (by simp [hrl])]
          rw [hcoll, IH.2, htake2, List.map_cons]

/-- C1: from a not-running state, if the finder answers records before
the Kth snapshot entry without rate-limit errors and fails with a
rate-limit-flavored error on the Kth one, the run leaves records before
K with their per-record outcomes (COMPLETED with the returned emails, or
FAILED with the error text), leaves the Kth record and everything after
it exactly as before — in particular still IDLE — posts the pause
notice, ends not-running, and calls the finder only on the first K+1
snapshot urls. -/
theorem processQueue_rate_limit_stop (st : AppState) (f : String → FinderOutcome) (k : Nat)
    (hrun : st.isProcessing = false)
    (hids : (st.websites.map WebsiteData.id).Nodup)
    (hk : k < (pendingOf st).length)
    (hlim : isRateLimited (f ((pendingOf st).get ⟨k, hk⟩).url) = true)
    (hbefore : ∀ j (hj : j < k),
      isRateLimited (f ((pendingOf st).get ⟨j, Nat.lt_trans hj hk⟩).url) = false) :
    processQueue f st =
      { st with websites := st.websites.map (updSnapshot f ((pendingOf st).take k)),
                isProcessing := false, notification := some rateLimitNotice } ∧
    processQueueCalls f st = ((pendingOf st).take (k + 1)).map WebsiteData.url := by
  have hpend : ∀ it ∈ pendingOf st, it ∈ st.websites ∧ it.status = ExtractionStatus.IDLE := by
    intro it hit
    have h2 := List.mem_filter.mp hit
    exact ⟨h2.1, of_decide_eq_true h2.2⟩
  have hpn : ((pendingOf st).map WebsiteData.id).Nodup :=
    List.Nodup.sublist (List.Sublist.map WebsiteData.id (List.filter_sublist _)) hids
  have HR := runQueue_rate_limit_at f k (pendingOf st)
    { st with isProcessing := true, notification := none }
    { st with isProcessing := true, notification := none }
    hids hpn hpend hk hlim hbefore
  constructor
  · rw [processQueue, if_neg (by simp [hrun])]
    show ((runQueue f (pendingOf st) { st with isProcessing := true, notification := none }).1).getLastD
      { st with isProcessing := true, notification := none } = _
    rw [HR.1]
  · rw [processQueueCalls, if_neg (by simp [hrun])]
    show (runQueue f (pendingOf st) { st with isProcessing := true, notification := none }).2 = _
    rw [HR.2]

/-- Witness for `processQueue_rate_limit_stop`: `c1Finder` answers
`a.com`, 429-rejects `b.com` (the second snapshot record, K = 2), and
the run stops there with `c.com` untouched. -/
theorem processQueue_rate_limit_stop_witness :
    processQueue c1Finder c1State =
      { c1State with
        websites := c1State.websites.map (updSnapshot c1Finder ((pendingOf c1State).take 1)),
        isProcessing := false, notification := some rateLimitNotice } ∧
    processQueueCalls c1Finder c1State = ["a.com", "b.com"] := by
  have H := processQueue_rate_limit_stop c1State c1Finder 1 rfl (by decide) (by decide)
    (by decide)
    (fun j hj => by
      have hj0 : j = 0 := by omega
      subst hj0
      show isRateLimited (c1Finder ((pendingOf c1State).get ⟨0, by decide⟩).url) = false
      decide)
  exact ⟨H.1, by rw [H.2]; decide⟩

/-! ## C9 / C10 — reachable-state invariants -/

theorem mem_updateById_elim (i : Nat) (g : WebsiteData → WebsiteData) (ws : List WebsiteData)
    (w : WebsiteData) (hw : w ∈ updateById i g ws) :
    ∃ w0, w0 ∈ ws ∧ w = (if w0.id = i then g w0 else w0) := by
  rw [updateById, List.mem_map] at hw
  obtain ⟨w0, h0, heq⟩ := hw
  exact ⟨w0, h0, heq.symm⟩

theorem StateInv_updateById (st : AppState) (i : Nat) (g : WebsiteData → WebsiteData)
    (hinv : StateInv st)
    (hgid : ∀ w, (g w).id = w.id)
    (hgp : ∀ w, (g w).status ≠ ExtractionStatus.PENDING)
    (hge : ∀ w ∈ st.websites, w.id = i → (g w).status ≠ ExtractionStatus.COMPLETED →
      (g w).emails = []) :
    StateInv { st with websites := updateById i g st.websites } := by
  obtain ⟨i1, i2, i3, i4⟩ := hinv
  refine ⟨?_, ?_, ?_, ?_⟩
  · show ((updateById i g st.websites).map WebsiteData.id).Nodup
    rw [updateById_map_id i g hgid]
    exact i1
  · intro w hw
    obtain ⟨w0, h0, heq⟩ := mem_updateById_elim i g st.websites w hw
    show w.id < st.nextId
    by_cases hc : w0.id = i
    · rw [heq, if_pos hc, hgid]
      exact i2 w0 h0
    · rw [heq, if_neg hc]
      exact i2 w0 h0
  · intro w hw
    obtain ⟨w0, h0, heq⟩ := mem_updateById_elim i g st.websites w hw
    by_cases hc : w0.id = i
    · rw [heq, if_pos hc]
      exact hgp w0
    · rw [heq, if_neg hc]
      exact i3 w0 h0
  · intro w hw hcomp
    obtain ⟨w0, h0, heq⟩ := mem_updateById_elim i g st.websites w hw
    by_cases hc : w0.id = i
    · rw [heq, if_pos hc] at hcomp ⊢
      exact hge w0 h0 hc hcomp
    · rw [heq, if_neg hc] at hcomp ⊢
      exact i4 w0 h0 hcomp

theorem StateInv_addUrls (urls : List String) (st : AppState) (h : StateInv st) :
    StateInv (addUrls urls st) := by
  obtain ⟨i1, i2, i3, i4⟩ := h
  obtain ⟨f1, f2, f3, f4, f5⟩ := addLoop_facts st.history urls
    (st.websites.map (fun w => normalizeUrl w.url)) st.nextId
  refine ⟨?_, ?_, ?_, ?_⟩
  · show ((st.websites ++ (addLoop st.history urls
      (st.websites.map (fun w => normalizeUrl w.url)) st.nextId).entries).map
      WebsiteData.id).Nodup
    rw [List.map_append, List.nodup_append]
    refine ⟨i1, f3, ?_⟩
    intro a ha hb
    rw [List.mem_map] at ha
    rw [List.mem_map] at hb
    obtain ⟨w, hw, hwe⟩ := ha
    obtain ⟨e, he, hee⟩ := hb
    have hb1 := i2 w hw
    have hb2 := (f2 e he).2.2.2.2.1
    omega
  · intro w hw
    rcases List.mem_append.mp hw with hin | hin
    · have hb1 := i2 w hin
      show w.id < (addLoop st.history urls
        (st.websites.map (fun w => normalizeUrl w.url)) st.nextId).nextId
      omega
    · exact (f2 w hin).2.2.2.2.2
  · intro w hw
    rcases List.mem_append.mp hw with hin | hin
    · exact i3 w hin
    · rw [(f2 w hin).2.2.1]
      simp
  · intro w hw hc
    rcases List.mem_append.mp hw with hin | hin
    · exact i4 w hin hc
    · exact (f2 w hin).2.2.2.1

theorem getLastD_mem {α : Type _} (l : List α) (d : α) (h : l ≠ []) : l.getLastD d ∈ l := by
  induction l generalizing d with
  | nil => exact absurd rfl h
  | cons a t ih =>
    rw [List.getLastD_cons]
    cases t with
    | nil => simp
    | cons b t2 => exact List.mem_cons_of_mem a (ih a (by simp))

theorem runQueue_trace_ne (f : String → FinderOutcome) (pending : List WebsiteData)
    (st : AppState) : (runQueue f pending st).1 ≠ [] := by
  cases pending with
  | nil => simp [runQueue]
  | cons item rest =>
    rcases hfe : f item.url with es | e
    · simp [runQueue, hfe]
    · by_cases hrl : isRateLimit e = true
      · simp [runQueue, hfe, hrl]
      · rw [Bool.not_eq_true] at hrl
        simp [runQueue, hfe, hrl]

theorem runQueue_trace_inv (f : String → FinderOutcome) (pending : List WebsiteData) :
    ∀ (st : AppState),
    StateInv st →
    (∀ it ∈ pending, it ∈ st.websites ∧ it.status = ExtractionStatus.IDLE) →
    ((pending.map WebsiteData.id).Nodup) →
    ∀ st2 ∈ (runQueue f pending st).1, StateInv st2 := by
  induction pending with
  | nil =>
    intro st hinv hpend hpn st2 hst2
    have hst2e : st2 = { st with isProcessing := false } := by
      simpa [runQueue] using hst2
    subst hst2e
    exact hinv
  | cons item rest ih =>
    intro st hinv hpend hpn st2 hst2
    obtain ⟨hmem, hidle⟩ := hpend item (List.mem_cons_self item rest)
    have hna : item.id ∉ rest.map WebsiteData.id := (List.nodup_cons.mp hpn).1
    have hpn' : (rest.map WebsiteData.id).Nodup := (List.nodup_cons.mp hpn).2
    have hidnodup := hinv.1
    have hinv1 : StateInv { st with websites := updateById item.id (fun w => { w with status := ExtractionStatus.PROCESSING }) st.websites } := by
      apply StateInv_updateById st item.id (fun w => { w with status := ExtractionStatus.PROCESSING }) hinv (fun w => rfl) (fun w => by simp)
      intro w hw hwid _
      have hwitem : w = item := List.inj_on_of_nodup_map hidnodup hw hmem hwid
      show w.emails = []
      apply hinv.2.2.2 w hw
      rw [hwitem, hidle]
      simp
    have hmemTouched : ∀ w ∈ updateById item.id
        (fun w => { w with status := ExtractionStatus.PROCESSING }) st.websites,
        w.id = item.id → w.emails = [] := by
      intro w hw hwid
      obtain ⟨w0, h0, heq⟩ := mem_updateById_elim _ _ _ w hw
      by_cases hc : w0.id = item.id
      · rw [heq, if_pos hc]
        show w0.emails = []
        have hw0item : w0 = item := List.inj_on_of_nodup_map hidnodup h0 hmem hc
        apply hinv.2.2.2 w0 h0
        rw [hw0item, hidle]
        simp
      · rw [heq, if_neg hc] at hwid
        exact absurd hwid hc
    have hrest : ∀ it ∈ rest, it ∈ updateById item.id
        (fun w => { w with status := ExtractionStatus.PROCESSING }) st.websites ∧
        it.status = ExtractionStatus.IDLE := by
      intro it hit
      obtain ⟨hit1, hit2⟩ := hpend it (List.mem_cons_of_mem item hit)
      refine ⟨mem_updateById_of_ne item.id _ it st.websites hit1 ?_, hit2⟩
      intro hid2
      exact hna (hid2 ▸ List.mem_map_of_mem WebsiteData.id hit)
    rcases hfe : f item.url with es | e
    · rw [runQueue] at hst2
      rw [hfe] at hst2
      simp only [List.mem_cons] at hst2
      rcases hst2 with h | h | h
      · subst h
        exact hinv1
      · subst h
        apply StateInv_updateById _ item.id (fun w => { w with status := ExtractionStatus.COMPLETED, emails := es }) hinv1 (fun w => rfl) (fun w => by simp)
        intro w _ _ hcs
        exact absurd rfl hcs
      · have hinv2 : StateInv { st with websites := updateById item.id (fun w => { w with status := ExtractionStatus.COMPLETED, emails := es }) (updateById item.id (fun w => { w with status := ExtractionStatus.PROCESSING }) st.websites) } := by
          apply StateInv_updateById _ item.id (fun w => { w with status := ExtractionStatus.COMPLETED, emails := es }) hinv1 (fun w => rfl) (fun w => by simp)
          intro w _ _ hcs
          exact absurd rfl hcs
        have hrest2 : ∀ it ∈ rest, it ∈ updateById item.id
            (fun w => { w with status := ExtractionStatus.COMPLETED, emails := es })
            (updateById item.id (fun w => { w with status := ExtractionStatus.PROCESSING })
              st.websites) ∧ it.status = ExtractionStatus.IDLE := by
          intro it hit
          obtain ⟨hit1, hit2⟩ := hrest it hit
          refine ⟨mem_updateById_of_ne item.id _ it _ hit1 ?_, hit2⟩
          intro hid2
          exact hna (hid2 ▸ List.mem_map_of_mem WebsiteData.id hit)
        exact ih _ hinv2 hrest2 hpn' st2 h
    · rw [runQueue] at hst2
      rw [hfe] at hst2
      by_cases hrl : isRateLimit e = true
      · simp only [hrl, if_true, List.mem_cons, List.mem_singleton] at hst2
        rcases hst2 with h | h | h | h
        · subst h
          exact hinv1
        · subst h
          exact hinv1
        · subst h
          apply StateInv_updateById _ item.id (fun w => { w with status := ExtractionStatus.IDLE }) hinv1 (fun w => rfl) (fun w => by simp)
          intro w hw hwid _
          exact hmemTouched w hw hwid
        · cases h
      · rw [Bool.not_eq_true] at hrl
        simp only [hrl, Bool.false_eq_true, if_false, List.mem_cons] at hst2
        rcases hst2 with h | h | h
        · subst h
          exact hinv1
        · subst h
          apply StateInv_updateById _ item.id (fun w => { w with status := ExtractionStatus.FAILED, error := some (errorText e) }) hinv1 (fun w => rfl) (fun w => by simp)
          intro w hw hwid _
          exact hmemTouched w hw hwid
        · have hinv2 : StateInv { st with websites := updateById item.id (fun w => { w with status := ExtractionStatus.FAILED, error := some (errorText e) }) (updateById item.id (fun w => { w with status := ExtractionStatus.PROCESSING }) st.websites) } := by
            apply StateInv_updateById _ item.id (fun w => { w with status := ExtractionStatus.FAILED, error := some (errorText e) }) hinv1 (fun w => rfl) (fun w => by simp)
            intro w hw hwid _
            exact hmemTouched w hw hwid
          have hrest2 : ∀ it ∈ rest, it ∈ updateById item.id
              (fun w => { w with status := ExtractionStatus.FAILED, error := some (errorText e) })
              (updateById item.id (fun w => { w with status := ExtractionStatus.PROCESSING })
                st.websites) ∧ it.status = ExtractionStatus.IDLE := by
            intro it hit
            obtain ⟨hit1, hit2⟩ := hrest it hit
            refine ⟨mem_updateById_of_ne item.id _ it _ hit1 ?_, hit2⟩
            intro hid2
            exact hna (hid2 ▸ List.mem_map_of_mem WebsiteData.id hit)
          exact ih _ hinv2 hrest2 hpn' st2 h

theorem StateInv_nil (st : AppState) (h : st.websites = []) : StateInv st := by
  refine ⟨?_, ?_, ?_, ?_⟩
  · rw [h]
    exact List.nodup_nil
  · intro w hw
    rw [h] at hw
    cases hw
  · intro w hw
    rw [h] at hw
    cases hw
  · intro w hw
    rw [h] at hw
    cases hw

theorem StateInv_remove (i : Nat) (st : AppState) (h : StateInv st) :
    StateInv (removeWebsite i st) := by
  refine ⟨?_, ?_, ?_, ?_⟩
  · exact List.Nodup.sublist (List.Sublist.map WebsiteData.id (List.filter_sublist st.websites)) h.1
  · intro w hw
    exact h.2.1 w (List.mem_of_mem_filter hw)
  · intro w hw
    exact h.2.2.1 w (List.mem_of_mem_filter hw)
  · intro w hw
    exact h.2.2.2 w (List.mem_of_mem_filter hw)

theorem StateInv_run_aux (f : String → FinderOutcome) (st0 : AppState) (h : StateInv st0) :
    ∀ st2 ∈ (runQueue f (pendingOf st0) st0).1, StateInv st2 := by
  have hpend : ∀ it ∈ pendingOf st0, it ∈ st0.websites ∧ it.status = ExtractionStatus.IDLE := by
    intro it hit
    exact ⟨List.mem_of_mem_filter hit, of_decide_eq_true (List.mem_filter.mp hit).2⟩
  have hnodup : ((pendingOf st0).map WebsiteData.id).Nodup :=
    List.Nodup.sublist (List.Sublist.map WebsiteData.id (List.filter_sublist st0.websites)) h.1
  exact runQueue_trace_inv f (pendingOf st0) st0 h hpend hnodup

theorem StateInv_processQueue (f : String → FinderOutcome) (st : AppState) (h : StateInv st) :
    StateInv (processQueue f st) := by
  rw [processQueue]
  by_cases hp : st.isProcessing
  · rw [if_pos hp]
    exact h
  · rw [if_neg hp]
    set st0 : AppState := { st with isProcessing := true, notification := none } with hst0
    have hinv0 : StateInv st0 := h
    show StateInv ((runQueue f (pendingOf st0) st0).1.getLastD st0)
    exact StateInv_run_aux f st0 hinv0 _
      (getLastD_mem (runQueue f (pendingOf st0) st0).1 st0 (runQueue_trace_ne f (pendingOf st0) st0))

theorem StateInv_trace (f : String → FinderOutcome) (st st2 : AppState) (h : StateInv st)
    (hmem : st2 ∈ processQueueTrace f st) : StateInv st2 := by
  rw [processQueueTrace] at hmem
  by_cases hp : st.isProcessing
  · rw [if_pos hp] at hmem
    cases hmem
  · rw [if_neg hp] at hmem
    set st0 : AppState := { st with isProcessing := true, notification := none } with hst0
    have hinv0 : StateInv st0 := h
    have hmem2 : st2 = st0 ∨ st2 ∈ (runQueue f (pendingOf st0) st0).1 := List.mem_cons.mp hmem
    rcases hmem2 with he | hm
    · rw [he]
      exact hinv0
    · exact StateInv_run_aux f st0 hinv0 st2 hm

theorem reachable_inv (st : AppState) (h : Reachable st) : StateInv st := by
  induction h with
  | init hh => exact StateInv_nil _ rfl
  | add urls hR ih => exact StateInv_addUrls urls _ ih
  | remove i hR ih => exact StateInv_remove i _ ih
  | clear hR ih =>
    rename_i stA
    rw [clearList]
    by_cases hc : stA.websites = []
    · rw [if_pos hc]
      exact ih
    · rw [if_neg hc]
      exact StateInv_nil _ rfl
  | save hR ih =>
    rename_i stA
    rw [saveAndClear]
    by_cases hc : stA.websites = []
    · rw [if_pos hc]
      exact ih
    · rw [if_neg hc]
      exact StateInv_nil _ rfl
  | audience s hR ih => exact ih
  | dismiss hR ih => exact ih
  | run f hR ih => exact StateInv_processQueue f _ ih
  | runMid f hR hmem ih => exact StateInv_trace f _ _ ih hmem

/-- C9: the status PENDING is never assigned by any operation: in every
state reachable from a fresh load (add, remove, clear, save-and-clear,
audience edit, notification dismissal, a full queue run or any of its
intermediate states), every record's status is one of IDLE, PROCESSING,
COMPLETED, FAILED — never PENDING. -/
theorem reachable_no_pending (st : AppState) (h : Reachable st) :
    ∀ w ∈ st.websites, w.status ≠ ExtractionStatus.PENDING ∧
      (w.status = ExtractionStatus.IDLE ∨ w.status = ExtractionStatus.PROCESSING ∨
       w.status = ExtractionStatus.COMPLETED ∨ w.status = ExtractionStatus.FAILED) := by
  intro w hw
  have hnp := (reachable_inv st h).2.2.1 w hw
  refine ⟨hnp, ?_⟩
  cases hs : w.status
  · exact Or.inl rfl
  · exact absurd hs hnp
  · exact Or.inr (Or.inl rfl)
  · exact Or.inr (Or.inr (Or.inl rfl))
  · exact Or.inr (Or.inr (Or.inr rfl))

theorem reachable_no_pending_witness :
    (exRec 0 "a.com" ExtractionStatus.IDLE []).status ≠ ExtractionStatus.PENDING ∧
    ((exRec 0 "a.com" ExtractionStatus.IDLE []).status = ExtractionStatus.IDLE ∨
     (exRec 0 "a.com" ExtractionStatus.IDLE []).status = ExtractionStatus.PROCESSING ∨
     (exRec 0 "a.com" ExtractionStatus.IDLE []).status = ExtractionStatus.COMPLETED ∨
     (exRec 0 "a.com" ExtractionStatus.IDLE []).status = ExtractionStatus.FAILED) :=
  reachable_no_pending (addUrls ["a.com"] (initialState []))
    (Reachable.add ["a.com"] (Reachable.init []))
    (exRec 0 "a.com" ExtractionStatus.IDLE []) (by decide)

/-- C10: in every reachable state a record with a non-empty email list is
COMPLETED, hence the found count never exceeds the processed count and
the derived success rate lies between 0 and 100. -/
theorem reachable_emails_completed (st : AppState) (h : Reachable st) :
    (∀ w ∈ st.websites, w.emails ≠ [] → w.status = ExtractionStatus.COMPLETED) ∧
    (stats st.websites).found ≤ (stats st.websites).processed ∧
    (stats st.websites).successRate ≤ 100 := by
  have hinv := reachable_inv st h
  have hcomp : ∀ w ∈ st.websites, w.emails ≠ [] → w.status = ExtractionStatus.COMPLETED := by
    intro w hw hne
    by_contra hnc
    exact hne (hinv.2.2.2 w hw hnc)
  have hfoundP : (stats st.websites).found =
      st.websites.countP (fun (w : WebsiteData) => decide (0 < w.emails.length)) :=
    (List.countP_eq_length_filter (fun (w : WebsiteData) => decide (0 < w.emails.length)) st.websites).symm
  have hprocP : (stats st.websites).processed = st.websites.countP (fun w =>
      decide (w.status = ExtractionStatus.COMPLETED ∨ w.status = ExtractionStatus.FAILED)) :=
    (List.countP_eq_length_filter _ st.websites).symm
  have hfp : (stats st.websites).found ≤ (stats st.websites).processed := by
    rw [hfoundP, hprocP]
    apply List.countP_mono_left
    intro w hw hd
    have hne : w.emails ≠ [] := by
      have hlen : 0 < w.emails.length := of_decide_eq_true hd
      intro hnil
      rw [hnil] at hlen
      exact absurd hlen (by simp)
    exact decide_eq_true (Or.inl (hcomp w hw hne))
  refine ⟨hcomp, hfp, ?_⟩
  have hsr : (stats st.websites).successRate =
      if 0 < (stats st.websites).processed then
        jsPercent (stats st.websites).found (stats st.websites).processed
      else 0 := rfl
  rw [hsr]
  by_cases hp : 0 < (stats st.websites).processed
  · rw [if_pos hp]
    exact jsPercent_le_100 _ _ hp hfp
  · rw [if_neg hp]
    exact Nat.zero_le 100

theorem reachable_emails_completed_witness :
    (stats (addUrls ["b.com"] (initialState [])).websites).found ≤
      (stats (addUrls ["b.com"] (initialState [])).websites).processed ∧
    (stats (addUrls ["b.com"] (initialState [])).websites).successRate ≤ 100 :=
  ⟨(reachable_emails_completed (addUrls ["b.com"] (initialState []))
      (Reachable.add ["b.com"] (Reachable.init []))).2.1,
   (reachable_emails_completed (addUrls ["b.com"] (initialState []))
      (Reachable.add ["b.com"] (Reachable.init []))).2.2⟩
